import Mathlib

/-! Directory records of duc (`src/libduc/dir.c`).

A shallow embedding of `dir.c` and theorems about it.

Conventions of the embedding.

* A byte is a `Nat`; a C string is the list of its bytes before the
  terminating NUL.  Where the source reads a character array as a string the
  read is `cstr`: the bytes before the first NUL, stopping at the end of the
  array when the array holds no NUL.  The source then reads on past the
  array, which C leaves undefined; the embedding says nothing about such a
  read, and a theorem about a read of this kind is stated for arrays it stays
  inside (a name array that holds a NUL, a key text that fits `key[32]`).
* Integer types are those of an LP64 Linux: `off_t` is a signed 64-bit
  integer (`Int`, wrapped by `wrap_off`), `dev_t` and `ino_t` are unsigned
  64-bit, `mode_t` is unsigned 32-bit (`Nat`, reduced explicitly).  Slot
  counts (`ent_max`, `ent_count`, `ent_cur`) are `Nat`; byte sizes of
  allocations are not modelled.
* `struct duc` is passed explicitly: every function takes the context and
  returns the updated one (`dir->duc` in the source is this context).
  Logging (`duc_log`) has no effect on the state and is left out.
* The size `M` of the `name` field of `struct ducent` (declared in `duc.h`)
  is a parameter.  The library sort `qsort` is a parameter too; `qsort_musl`
  is the one of musl libc.
* `malloc`/`realloc` outcomes are inputs (`ok`) of `ducdir_new` and
  `ducdir_add_ent`.  The reading path (`ducdir_read` and its callers) is
  modelled with these requests succeeding.
-/

namespace Duc

/-! ## Machine integers -/

/-- Conversion of an integer to `off_t` (signed 64-bit, two's complement). -/
def wrap_off (z : Int) : Int := (z + 2 ^ 63) % 2 ^ 64 - 2 ^ 63

/-- Conversion of an `off_t` to `uint64_t`. -/
def off_to_u64 (z : Int) : Nat := (z % 2 ^ 64).toNat

/-- Conversion of a `uint64_t` to `off_t`. -/
def u64_to_off (v : Nat) : Int := wrap_off (Int.ofNat v)

/-! ## C strings -/

/-- The string held in a character array: the bytes before the first NUL. -/
def cstr (s : List Nat) : List Nat := s.takeWhile (fun c => c != 0)

/-- Length of a C string, `strlen`. -/
def strlen (s : List Nat) : Nat := (cstr s).length

/-- The array of `n` bytes that `strncpy(dst, src, n)` leaves in `dst`: the
first `n` bytes of the string `src`, padded with NULs up to `n` (no NUL at
all when the string has `n` bytes or more). -/
def strncpy (src : List Nat) (n : Nat) : List Nat :=
  (cstr src).take n ++ List.replicate (n - (cstr src).length) 0

/-- Equality test `strcmp(a, b) == 0` on two arrays that each hold a NUL.
For an array without NUL, `strcmp` reads past its end and the value given
here, which stops at the end, describes no run of the code. -/
def strcmp_eq (a b : List Nat) : Bool := cstr a == cstr b

/-- Bytes of a string literal. -/
def bytes (s : String) : List Nat := s.toList.map Char.toNat

/-! ## Data model -/

/-- Error kinds kept in `duc->err`.  Modelled from the spec: the enumeration
is declared in `duc.h`, which is not among the sources; §7 names the kinds.
`backend r` is a code `r` reported by the store, `DUC_OK` is the value 0. -/
inductive duc_errno where
  | DUC_OK
  | DUC_E_PATH_NOT_FOUND
  | DUC_E_OUT_OF_MEMORY
  | backend (r : Int)
  deriving DecidableEq, Repr

/-- The key-value store behind `duc->db`: byte keys to byte values. -/
abbrev Store := List Nat → Option (List Nat)

/-- The context `struct duc`: store handle and last error. -/
structure duc where
  db : Store
  err : duc_errno

/-- One entry, `struct ducent`; `name` is the character array of the entry. -/
structure ducent where
  name : List Nat
  size : Int
  mode : Nat
  dev : Nat
  ino : Nat
  deriving DecidableEq, Repr

/-- The directory, `struct ducdir`.  `ent_list` holds the allocated slots
(a null pointer has none); the slots below `ent_count` are the entries.  The
field `mode` of the source is never written nor read and is left out. -/
structure ducdir where
  ent_list : List ducent
  size_total : Int
  ent_cur : Nat
  ent_count : Nat
  ent_max : Nat
  deriving DecidableEq, Repr

/-- Content of a slot that was allocated and not yet written. -/
def ducent.blank : ducent := ⟨[], 0, 0, 0, 0⟩

/-- The entries a directory holds: slots `0 .. ent_count - 1`. -/
def ducdir.entries (dir : ducdir) : List ducent := dir.ent_list.take dir.ent_count

/-- The name stored in an entry, read as a string. -/
def ducent.name_str (e : ducent) : List Nat := cstr e.name

/-! ## Store and buffer helpers -/

/-- Lookup `db_get(db, key, keylen, &vallen)`.  Modelled from the spec:
`db.h` is not among the sources; §6 gives `get(key) → value | not_found`. -/
def db_get (db : Store) (key : List Nat) : Option (List Nat) := db key

/-- Update `db_put(db, key, keylen, val, vallen)` with the backend's return
code `rc`.  Modelled from the spec: `db.h` is not among the sources; §6 gives
`put(key, value) → success | backend_error`.  A failing put stores nothing. -/
def db_put (db : Store) (key val : List Nat) (rc : Int) : Store × Int :=
  if rc = 0 then (fun k => if k = key then some val else db k, 0) else (db, rc)

/-- Digits of the encoding of `v`, least significant group of 7 bits first;
at most `n + 1` bytes. -/
def varint_enc : Nat → Nat → List Nat
  | 0, v => [v % 128]
  | n + 1, v => if v < 128 then [v] else (128 + v % 128) :: varint_enc n (v / 128)

/-- Decoder of `varint_enc`: value and the bytes left. -/
def varint_dec : List Nat → Nat × List Nat
  | [] => (0, [])
  | b :: bs => if b < 128 then (b, bs) else ((b % 128) + 128 * (varint_dec bs).1, (varint_dec bs).2)

/-- Bytes appended by `buffer_put_varint(b, v)` for a `uint64_t` argument.
Modelled from the spec: `buffer.h` and `varint.h` are not among the sources;
the glossary describes an unsigned integer written in a number of bytes that
grows with its magnitude.  Seven bits per byte, least significant first, the
high bit set on every byte but the last. -/
def buffer_put_varint (v : Nat) : List Nat := varint_enc 9 (v % 2 ^ 64)

/-- Read `buffer_get_varint(b, &v)`: the `uint64_t` read and the bytes left.
Modelled from the spec: `buffer.h` and `varint.h` are not among the sources. -/
def buffer_get_varint (b : List Nat) : Nat × List Nat :=
  ((varint_dec b).1 % 2 ^ 64, (varint_dec b).2)

/-- Bytes appended by `buffer_put_string(b, s)`.  Modelled from the spec:
`buffer.h` is not among the sources; §4.2 calls the field a length-prefixed
text.  The length is written as a varint, the bytes of the string follow. -/
def buffer_put_string (s : List Nat) : List Nat :=
  buffer_put_varint (strlen s) ++ cstr s

/-- Read `buffer_get_string(b, &s)`: the bytes of the string and the bytes
left.  Modelled from the spec: `buffer.h` is not among the sources.  When
fewer bytes are left than the length announces, the string is what is left. -/
def buffer_get_string (b : List Nat) : List Nat × List Nat :=
  (((buffer_get_varint b).2).take (buffer_get_varint b).1,
   ((buffer_get_varint b).2).drop (buffer_get_varint b).1)

/-! ## `dir.c` -/

/-- Request `realloc(list, n slots)` that succeeds: the old slots are kept,
new slots are unwritten. -/
def realloc (l : List ducent) (n : Nat) : List ducent :=
  l.take n ++ List.replicate (n - l.length) ducent.blank

/-- Constructor `ducdir_new(duc, ent_max)`; `ok` tells whether the two
`malloc` requests succeed. -/
def ducdir_new (ok : Bool) (d : duc) (ent_max : Nat) : Option ducdir × duc :=
  if ok then
    (some { ent_list := List.replicate ent_max ducent.blank, size_total := 0,
            ent_cur := 0, ent_count := 0, ent_max := ent_max }, d)
  else
    (none, { d with err := duc_errno.DUC_E_OUT_OF_MEMORY })

/-- Insertion `ducdir_add_ent(dir, name, size, mode, dev, ino)`: the directory
after the call, the context and the return value.  `ok` tells whether the
`realloc` request, when one is made, succeeds.  The store into slot
`ent_count` leaves the slots unchanged when that slot does not exist. -/
def ducdir_add_ent (M : Nat) (ok : Bool) (d : duc) (dir : ducdir) (name : List Nat)
    (size : Int) (mode dev ino : Nat) : ducdir × duc × Int :=
  let grow := decide (dir.ent_count ≥ dir.ent_max)
  let ent_max := if grow then dir.ent_max * 2 else dir.ent_max
  if grow && !ok then
    ({ dir with ent_max := ent_max, ent_list := [] },
     { d with err := duc_errno.DUC_E_OUT_OF_MEMORY }, -1)
  else
    let ent_list := if grow then realloc dir.ent_list ent_max else dir.ent_list
    let ent : ducent := ⟨strncpy name M, size, mode, dev, ino⟩
    ({ dir with ent_max := ent_max
                ent_list := ent_list.set dir.ent_count ent
                size_total := wrap_off (dir.size_total + size)
                ent_count := dir.ent_count + 1 }, d, 0)

/-- Comparator `fn_comp_ent(a, b)`: 1 when `a` is smaller than `b`, else 0. -/
def fn_comp_ent (ea eb : ducent) : Int := if ea.size < eb.size then 1 else 0

/-- Decimal text of an integer, as `%jd` prints it. -/
def fmt_jd (z : Int) : List Nat :=
  match z with
  | Int.ofNat n => (Nat.toDigits 10 n).map Char.toNat
  | Int.negSucc n => 45 :: (Nat.toDigits 10 (n + 1)).map Char.toNat

/-- Key maker `mkkey(dev, ino, key, keylen)`: the string left in `key` (at
most `keylen - 1` bytes of the text) and the return value of `snprintf`, the
length of the whole text `"<dev>/<ino>"`. -/
def mkkey (dev ino : Nat) (keylen : Nat) : List Nat × Nat :=
  let text := fmt_jd (u64_to_off dev) ++ 47 :: fmt_jd (u64_to_off ino)
  (text.take (keylen - 1), text.length)

/-- The key bytes `key[0 .. keyl)` that `ducdir_write` and `ducdir_read` hand
to the store: from the 32-byte array filled by `mkkey`, whose string is
followed by a NUL.  This is the key of the code when `keyl` is at most 32,
the size of the array.  For a longer text the code hands over `keyl` bytes
that start with the 32 bytes of the array and go on with up to 9 bytes of
the stack behind it; the value given here is only that 32-byte start. -/
def record_key (dev ino : Nat) : List Nat :=
  ((mkkey dev ino 32).1 ++ [0]).take (mkkey dev ino 32).2

/-- Getter `duc_sizedir(dir)`. -/
def duc_sizedir (dir : ducdir) : Int := dir.size_total

/-- Bytes written for one entry in the loop of `ducdir_write`. -/
def put_ent (e : ducent) : List Nat :=
  buffer_put_string e.name ++ buffer_put_varint (off_to_u64 e.size)
    ++ buffer_put_varint e.mode ++ buffer_put_varint e.dev ++ buffer_put_varint e.ino

/-- The buffer filled by the loop of `ducdir_write`. -/
def encode_entries : List ducent → List Nat
  | [] => []
  | e :: es => put_ent e ++ encode_entries es

/-- Serialiser `ducdir_write(dir, dev, ino)`: context and return value.
`buf_ok` tells whether `buffer_new` succeeds, `put_rc` is what `db_put`
returns. -/
def ducdir_write (buf_ok : Bool) (put_rc : Int) (d : duc) (dir : ducdir) (dev ino : Nat) :
    duc × Int :=
  if !buf_ok then ({ d with err := duc_errno.DUC_E_OUT_OF_MEMORY }, -1)
  else
    let b := encode_entries dir.entries
    let r := db_put d.db (record_key dev ino) b put_rc
    if r.2 ≠ 0 then ({ db := r.1, err := duc_errno.backend r.2 }, -1)
    else ({ d with db := r.1 }, 0)

/-- One round of the loop of `ducdir_read`: the five reads and the insertion. -/
def read_ent (M : Nat) (d : duc) (dir : ducdir) (b : List Nat) : ducdir × duc × List Nat :=
  let name := buffer_get_string b
  let size := buffer_get_varint name.2
  let mode := buffer_get_varint size.2
  let dev := buffer_get_varint mode.2
  let ino := buffer_get_varint dev.2
  let r := ducdir_add_ent M true d dir name.1 (u64_to_off size.1) (mode.1 % 2 ^ 32) dev.1 ino.1
  (r.1, r.2.1, ino.2)

/-- The loop `while(b->ptr < b->len)` of `ducdir_read`, run for at most `fuel`
rounds; `b` is the part of the buffer not yet read. -/
def read_loop (M : Nat) : Nat → duc → ducdir → List Nat → ducdir × duc
  | 0, d, dir, _ => (dir, d)
  | fuel + 1, d, dir, b =>
    if b = [] then (dir, d)
    else
      let r := read_ent M d dir b
      read_loop M fuel r.2.1 r.1 r.2.2

/-- Deserialiser `ducdir_read(duc, dev, ino)`.  Every round of the loop reads
at least one byte, so `val.length` rounds exhaust the buffer. -/
def ducdir_read (M : Nat) (d : duc) (dev ino : Nat) : Option ducdir × duc :=
  match ducdir_new true d 8 with
  | (none, d1) => (none, { d1 with err := duc_errno.DUC_E_OUT_OF_MEMORY })
  | (some dir, d1) =>
    match db_get d1.db (record_key dev ino) with
    | none => (none, { d1 with err := duc_errno.DUC_E_PATH_NOT_FOUND })
    | some val =>
      let r := read_loop M val.length d1 dir val
      (some r.1, r.2)

/-- The library sort on the first `ent_count` slots, as called by
`duc_opendirat`. -/
abbrev Qsort := (ducent → ducent → Int) → List ducent → List ducent

/-- Opener `duc_opendirat(duc, dev, ino)`: `ducdir_read`, then `qsort` of the
entries with `fn_comp_ent`. -/
def duc_opendirat (M : Nat) (q : Qsort) (d : duc) (dev ino : Nat) : Option ducdir × duc :=
  match ducdir_read M d dev ino with
  | (none, d1) => (none, d1)
  | (some dir, d1) =>
    (some { dir with ent_list := q fn_comp_ent (dir.ent_list.take dir.ent_count)
                                   ++ dir.ent_list.drop dir.ent_count }, d1)

/-- The scan of `duc_finddir` over the slots from index `i` on: index of the
first slot whose name compares equal. -/
def find_from (name : List Nat) : List ducent → Nat → Option Nat
  | [], _ => none
  | e :: es, i => if strcmp_eq name e.name then some i else find_from name es (i + 1)

/-- Lookup `duc_finddir(dir, name)`: the index of the entry returned (the
pointer `&dir->ent_list[i]`), or none with the error set. -/
def duc_finddir (d : duc) (dir : ducdir) (name : List Nat) : Option Nat × duc :=
  match find_from name dir.entries 0 with
  | some i => (some i, d)
  | none => (none, { d with err := duc_errno.DUC_E_PATH_NOT_FOUND })

/-- White space as `isspace` sees it. -/
def isspace (c : Nat) : Bool := c == 32 || (9 ≤ c && c ≤ 13)

/-- Decimal digit test, `isdigit`. -/
def isdigit (c : Nat) : Bool := 48 ≤ c && c ≤ 57

/-- Value of a run of decimal digits, most significant first. -/
def digits_val (ds : List Nat) : Nat := ds.foldl (fun acc c => 10 * acc + (c - 48)) 0

/-- One `%jd` conversion of `sscanf`: white space is skipped, then an optional
sign and a non-empty run of digits are read.  The value and the text left, or
none on a matching failure. -/
def scan_jd (s : List Nat) : Option (Int × List Nat) :=
  let s1 := s.dropWhile isspace
  let neg := s1.head? == some 45
  let s2 := if s1.head? == some 45 || s1.head? == some 43 then s1.tail else s1
  let ds := s2.takeWhile isdigit
  if ds = [] then none
  else some (if neg then - Int.ofNat (digits_val ds) else Int.ofNat (digits_val ds),
             s2.dropWhile isdigit)

/-- Conversion of an `intmax_t` to the unsigned 64-bit `dev_t` / `ino_t` it is
stored into. -/
def to_u64 (z : Int) : Nat := (z % 2 ^ 64).toNat

/-- The `intmax_t` that a `%jd` conversion of glibc yields for digits denoting
`z`: `z` inside the range of `intmax_t`, else `INTMAX_MAX` or `INTMAX_MIN`. -/
def sat_intmax (z : Int) : Int :=
  if z > 2 ^ 63 - 1 then 2 ^ 63 - 1 else if z < -(2 ^ 63) then -(2 ^ 63) else z

/-- Call `sscanf(val, "%jd %jd", &dev, &ino)`: the contents of `dev` and `ino`
after the call, given their contents before it.  A variable whose conversion
does not happen keeps its content.  Digits denoting a value outside
`intmax_t` give `INTMAX_MAX` or `INTMAX_MIN`. -/
def sscanf_jd_jd (val : List Nat) (dev ino : Nat) : Nat × Nat :=
  match scan_jd (cstr val) with
  | none => (dev, ino)
  | some (a, r) =>
    match scan_jd r with
    | none => (to_u64 (sat_intmax a), ino)
    | some (b, _) => (to_u64 (sat_intmax a), to_u64 (sat_intmax b))

/-- The inner loop `while(l > 1 && path_canon[l] != '/') l--` of `duc_opendir`;
`path_canon[l]` at `l = strlen` is the terminating NUL. -/
def skip_to_sep (p : List Nat) : Nat → Nat
  | 0 => 0
  | l + 1 => if l + 1 > 1 ∧ p.getD (l + 1) 0 ≠ 47 then skip_to_sep p l else l + 1

/-- The loop `while(l > 0)` of `duc_opendir`, run for at most `fuel` rounds:
the final `l` and the value found (none when the loop ends with `l = 0`).
The result is none when the rounds are used up before the loop ends. -/
def find_anchor (db : Store) (p : List Nat) : Nat → Nat → Option (Nat × Option (List Nat))
  | 0, _ => none
  | fuel + 1, l =>
    if l > 0 then
      match db_get db (p.take l) with
      | some val => some (l, some val)
      | none => find_anchor db p fuel (skip_to_sep p (l - 1))
    else some (0, none)

/-- Tokens of a string split at `/`, empty tokens dropped; `cur` is the token
being read. -/
def split_tok : List Nat → List Nat → List (List Nat)
  | [], cur => if cur = [] then [] else [cur]
  | c :: cs, cur =>
    if c = 47 then (if cur = [] then split_tok cs [] else cur :: split_tok cs [])
    else split_tok cs (cur ++ [c])

/-- The successive tokens that `strtok_r(rest, "/", &save)` and the following
`strtok_r(NULL, "/", &save)` calls return for the character array `rest`. -/
def strtok_all (rest : List Nat) : List (List Nat) := split_tok (cstr rest) []

/-- The loop `while(dir && name)` of `duc_opendir` over the tokens left. -/
def descend (M : Nat) (q : Qsort) : duc → Option ducdir → List (List Nat) → Option ducdir × duc
  | d, some dir, name :: names =>
    match duc_finddir d dir name with
    | (some i, d1) =>
      let ent := dir.ent_list.getD i ducent.blank
      let r := duc_opendirat M q d1 ent.dev ent.ino
      descend M q r.2 r.1 names
    | (none, d1) => descend M q d1 none names
  | d, dir, _ => (dir, d)

/-- Resolver `duc_opendir(duc, path)`.  `path_canon` is what `realpath(path)`
returns (none for NULL); `dev0` and `ino0` are the contents of the locals
`dev` and `ino` before `sscanf` writes them.  The loop over `l` takes at most
`strlen + 1` rounds. -/
def duc_opendir (M : Nat) (q : Qsort) (d : duc) (path_canon : Option (List Nat))
    (dev0 ino0 : Nat) : Option ducdir × duc :=
  match path_canon with
  | none => (none, { d with err := duc_errno.DUC_E_PATH_NOT_FOUND })
  | some p =>
    match find_anchor d.db p (strlen p + 1) (strlen p) with
    | none => (none, d)
    | some (l, val) =>
      if l = 0 then (none, { d with err := duc_errno.DUC_E_PATH_NOT_FOUND })
      else
        let id := match val with
          | some v => sscanf_jd_jd v dev0 ino0
          | none => (dev0, ino0)
        match duc_opendirat M q d id.1 id.2 with
        | (none, d1) => (none, { d1 with err := duc_errno.DUC_E_PATH_NOT_FOUND })
        | (some dir, d1) => descend M q d1 (some dir) (strtok_all (strncpy (p.drop l) 256))

/-- Cursor read `duc_readdir(dir)`: the index of the entry returned, the
directory and the context after the call. -/
def duc_readdir (d : duc) (dir : ducdir) : Option Nat × ducdir × duc :=
  if dir.ent_cur < dir.ent_count then
    (some dir.ent_cur, { dir with ent_cur := dir.ent_cur + 1 }, { d with err := duc_errno.DUC_OK })
  else (none, dir, { d with err := duc_errno.DUC_OK })

/-- Cursor reset `duc_rewinddir(dir)`. -/
def duc_rewinddir (dir : ducdir) : ducdir × Int := ({ dir with ent_cur := 0 }, 0)

/-! ## Library sorts

A plain insertion sort, not the sort of a particular library: it sorts any
list for a comparator that is a consistent three-way comparison, and stands
for the library sort where a theorem needs one that rearranges its input. -/

/-- Insertion step that moves `x` in front of the first `y` with
`cmp x y <= 0`. -/
def insert_le (cmp : ducent → ducent → Int) (x : ducent) : List ducent → List ducent
  | [] => [x]
  | y :: ys => if cmp x y ≤ 0 then x :: y :: ys else y :: insert_le cmp x ys

/-- Insertion sort whose only test is `cmp x y <= 0`. -/
def qsort_insert_le : Qsort := fun cmp l => l.foldr (insert_le cmp) []

/-! ## The sort of musl

The function `qsort` that musl libc supplies to a program linked with it
(`src/stdlib/qsort.c`, a smoothsort), embedded statement by statement.  The
array is the list of its elements and a pointer into it is the index of an
element, so `width` is one and the table `lp` holds the Leonardo numbers
themselves.  The two words `p[0]`, `p[1]` are a pair of numbers below 2^64;
the bit operations on them are written with `*`, `/` and `%`. -/

/-- Leonardo numbers: the table `lp` of musl's `qsort`, in units of one
element (`lp[i] / width`). -/
def leonardo : Nat → Nat
  | 0 => 1
  | 1 => 1
  | n + 2 => leonardo n + leonardo (n + 1) + 1

/-- Number of trailing zero bits of a 64-bit word, `a_ctz_l`; 0 for the word
0. -/
def a_ctz_l (x : Nat) : Nat :=
  if x = 0 then 0
  else (List.range 64).foldr (fun i r => if (x / 2 ^ i) % 2 = 1 then i else r) 0

/-- Helper `pntz(p)` of musl's `qsort.c` on the two words `p[0]`, `p[1]`. -/
def pntz (p : Nat × Nat) : Nat :=
  if a_ctz_l ((p.1 + 2 ^ 64 - 1) % 2 ^ 64) ≠ 0 then a_ctz_l ((p.1 + 2 ^ 64 - 1) % 2 ^ 64)
  else if 64 + a_ctz_l p.2 ≠ 64 then 64 + a_ctz_l p.2
  else 0

/-- Helper `shl(p, n)` of musl's `qsort.c`: the two words shifted left by `n`
bits.  The `|=` joins bits of disjoint positions and is written as a sum. -/
def shl (p : Nat × Nat) (n : Nat) : Nat × Nat :=
  let n1 := if n ≥ 64 then n - 64 else n
  let p0 := if n ≥ 64 then 0 else p.1
  let p1 := if n ≥ 64 then p.1 else p.2
  ((p0 * 2 ^ n1) % 2 ^ 64, (p1 * 2 ^ n1) % 2 ^ 64 + p0 / 2 ^ (64 - n1))

/-- Helper `shr(p, n)` of musl's `qsort.c`: the two words shifted right by `n`
bits. -/
def shr (p : Nat × Nat) (n : Nat) : Nat × Nat :=
  let n1 := if n ≥ 64 then n - 64 else n
  let p0 := if n ≥ 64 then p.2 else p.1
  let p1 := if n ≥ 64 then 0 else p.2
  (p0 / 2 ^ n1 + (p1 * 2 ^ (64 - n1)) % 2 ^ 64, p1 / 2 ^ n1)

/-- Helper `cycle(width, ar, n)` of musl's `qsort.c`: the element at `ar[0]`
goes to `ar[n-1]` and every element at `ar[i+1]` goes to `ar[i]`. -/
def cycle (a : List ducent) (ar : List Nat) : List ducent :=
  if ar.length < 2 then a
  else
    (List.zip ar (ar.tail.map (fun i => a.getD i ducent.blank)
        ++ [a.getD (ar.headD 0) ducent.blank])).foldl
      (fun b iv => b.set iv.1 iv.2) a

/-- The loop of `sift`: the positions collected in `ar`; `x` is the element at
`ar[0]`. -/
def sift_loop (cmp : ducent → ducent → Int) (a : List ducent) (x : ducent) :
    Nat → Nat → Nat → List Nat → List Nat
  | 0, _, _, ar => ar
  | fuel + 1, head, pshift, ar =>
    if pshift > 1 then
      if cmp x (a.getD (head - 1 - leonardo (pshift - 2)) ducent.blank) ≥ 0
          ∧ cmp x (a.getD (head - 1) ducent.blank) ≥ 0 then ar
      else if cmp (a.getD (head - 1 - leonardo (pshift - 2)) ducent.blank)
          (a.getD (head - 1) ducent.blank) ≥ 0 then
        sift_loop cmp a x fuel (head - 1 - leonardo (pshift - 2)) (pshift - 1)
          (ar ++ [head - 1 - leonardo (pshift - 2)])
      else sift_loop cmp a x fuel (head - 1) (pshift - 2) (ar ++ [head - 1])
    else ar

/-- Function `sift(head, width, cmp, arg, pshift, lp)` of musl's `qsort.c`;
`pshift` falls in every round of its loop. -/
def sift (cmp : ducent → ducent → Int) (a : List ducent) (head pshift : Nat) : List ducent :=
  cycle a (sift_loop cmp a (a.getD head ducent.blank) pshift head pshift [head])

/-- The loop of `trinkle`: `head`, `pshift`, `trusty` and the positions `ar`
at its end; none when the rounds allowed are used up. -/
def trinkle_loop (cmp : ducent → ducent → Int) (a : List ducent) (x : ducent) :
    Nat → Nat → Nat × Nat → Nat → Bool → List Nat → Option (Nat × Nat × Bool × List Nat)
  | 0, _, _, _, _, _ => none
  | fuel + 1, head, p, pshift, trusty, ar =>
    if p ≠ (1, 0) then
      if cmp (a.getD (head - leonardo pshift) ducent.blank) x ≤ 0 then
        some (head, pshift, trusty, ar)
      else if (!trusty && decide (pshift > 1)) = true
          ∧ (cmp (a.getD (head - 1) ducent.blank)
                (a.getD (head - leonardo pshift) ducent.blank) ≥ 0
            ∨ cmp (a.getD (head - 1 - leonardo (pshift - 2)) ducent.blank)
                (a.getD (head - leonardo pshift) ducent.blank) ≥ 0) then
        some (head, pshift, trusty, ar)
      else
        trinkle_loop cmp a x fuel (head - leonardo pshift) (shr p (pntz p)) (pshift + pntz p)
          false (ar ++ [head - leonardo pshift])
    else some (head, pshift, trusty, ar)

/-- Function `trinkle(head, width, cmp, arg, pp, pshift, trusty, lp)` of
musl's `qsort.c`.  Its loop shifts `p`, a number below 2^128, to the right in
every round; 130 rounds are allowed. -/
def trinkle (cmp : ducent → ducent → Int) (a : List ducent) (head : Nat) (p : Nat × Nat)
    (pshift : Nat) (trusty : Bool) : Option (List ducent) :=
  match trinkle_loop cmp a (a.getD head ducent.blank) 130 head p pshift trusty [head] with
  | none => none
  | some (head1, pshift1, trusty1, ar) =>
    if !trusty1 then some (sift cmp (cycle a ar) head1 pshift1) else some a

/-- The first loop `while(head < high)` of musl's `qsort`: the array, `head`,
`p` and `pshift` at its end. -/
def musl_build (cmp : ducent → ducent → Int) (high : Nat) :
    Nat → List ducent → Nat → Nat × Nat → Nat → Option (List ducent × Nat × (Nat × Nat) × Nat)
  | 0, _, _, _, _ => none
  | fuel + 1, a, head, p, pshift =>
    if head < high then
      if p.1 % 4 = 3 then
        musl_build cmp high fuel (sift cmp a head pshift) (head + 1)
          (((shr p 2).1 + (1 - (shr p 2).1 % 2)), (shr p 2).2) (pshift + 2)
      else
        match (if leonardo (pshift - 1) ≥ high - head then trinkle cmp a head p pshift false
               else some (sift cmp a head pshift)) with
        | none => none
        | some a1 =>
          if pshift = 1 then
            musl_build cmp high fuel a1 (head + 1)
              (((shl p 1).1 + (1 - (shl p 1).1 % 2)), (shl p 1).2) 0
          else
            musl_build cmp high fuel a1 (head + 1)
              (((shl p (pshift - 1)).1 + (1 - (shl p (pshift - 1)).1 % 2)),
                (shl p (pshift - 1)).2) 1
    else some (a, head, p, pshift)

/-- The word `x ^ 7`: the three low bits flipped. -/
def xor7 (x : Nat) : Nat := x - x % 8 + (7 - x % 8)

/-- The last loop `while(pshift != 1 || p[0] != 1 || p[1] != 0)` of musl's
`qsort`. -/
def musl_shrink (cmp : ducent → ducent → Int) :
    Nat → List ducent → Nat → Nat × Nat → Nat → Option (List ducent)
  | 0, _, _, _, _ => none
  | fuel + 1, a, head, p, pshift =>
    if pshift ≠ 1 ∨ p ≠ (1, 0) then
      if pshift ≤ 1 then
        musl_shrink cmp fuel a (head - 1) (shr p (pntz p)) (pshift + pntz p)
      else
        let q1 := shr (xor7 (shl p 2).1, (shl p 2).2) 1
        let q2 := ((shl q1 1).1 + (1 - (shl q1 1).1 % 2), (shl q1 1).2)
        match trinkle cmp a (head - leonardo (pshift - 2) - 1) q1 (pshift - 2 + 1) true with
        | none => none
        | some a1 =>
          match trinkle cmp a1 (head - 1) q2 (pshift - 2) true with
          | none => none
          | some a2 => musl_shrink cmp fuel a2 (head - 1) q2 (pshift - 2)
    else some a

/-- Function `qsort(base, nel, width, cmp)` of musl (`src/stdlib/qsort.c`,
smoothsort) on an array of `nel` elements, positions counted in elements;
none when the rounds allowed to its loops are used up.  The first loop takes
`nel - 1` rounds and the last loop lowers `head` in every round. -/
def qsort_musl_run (cmp : ducent → ducent → Int) (a : List ducent) : Option (List ducent) :=
  if a.length = 0 then some a
  else
    match musl_build cmp (a.length - 1) a.length a 0 (1, 0) 1 with
    | none => none
    | some (a1, head, p, pshift) =>
      match trinkle cmp a1 head p pshift false with
      | none => none
      | some a2 => musl_shrink cmp (a.length + 1) a2 head p pshift

/-- The library sort of musl as a `Qsort`. -/
def qsort_musl : Qsort := fun cmp a => (qsort_musl_run cmp a).getD a

/-- A three-way comparator that orders by falling size. -/
def cmp_size_desc (ea eb : ducent) : Int :=
  if ea.size < eb.size then 1 else if eb.size < ea.size then -1 else 0

/-- Entries with the given sizes and nothing else set. -/
def sized (l : List Int) : List ducent := l.map (fun s => ⟨[], s, 0, 0, 0⟩)

/-! ## Building directories -/

/-- Arguments of one `ducdir_add_ent` call. -/
structure add_args where
  name : List Nat
  size : Int
  mode : Nat
  dev : Nat
  ino : Nat
  deriving DecidableEq, Repr

/-- The arguments have the values of their C types: `off_t`, `mode_t`,
`dev_t`, `ino_t`. -/
def add_args.typed (a : add_args) : Prop :=
  -(2 ^ 63 : Int) ≤ a.size ∧ a.size < 2 ^ 63 ∧ a.mode < 2 ^ 32 ∧ a.dev < 2 ^ 64 ∧ a.ino < 2 ^ 64

/-- The entry that `ducdir_add_ent` writes for the arguments `a`. -/
def stored (M : Nat) (a : add_args) : ducent := ⟨strncpy a.name M, a.size, a.mode, a.dev, a.ino⟩

/-- One `ducdir_add_ent` call on the arguments `a`. -/
def add_one (M : Nat) (ok : Bool) (d : duc) (dir : ducdir) (a : add_args) : ducdir × duc × Int :=
  ducdir_add_ent M ok d dir a.name a.size a.mode a.dev a.ino

/-- The directory after one successful `ducdir_add_ent` call per item of
`xs`, in order. -/
def add_all (M : Nat) (d : duc) (dir : ducdir) (xs : List add_args) : ducdir :=
  xs.foldl (fun dir a => (add_one M true d dir a).1) dir

/-! ## Example stores -/

/-- Store with no key. -/
def db_empty : Store := fun _ => none

/-- Context over the empty store. -/
def ctx_empty : duc := ⟨db_empty, duc_errno.DUC_OK⟩

/-- The directory that a successful `ducdir_new(duc, c)` returns. -/
def ducdir.fresh (c : Nat) : ducdir :=
  { ent_list := List.replicate c ducent.blank, size_total := 0, ent_cur := 0,
    ent_count := 0, ent_max := c }

/-- The context after the record of `(dev, ino)` is written with the entries
`xs`: `ducdir_new`, one `ducdir_add_ent` per item, `ducdir_write`. -/
def put_record (M : Nat) (d : duc) (dev ino : Nat) (xs : List add_args) : duc :=
  (ducdir_write true 0 d (add_all M d (ducdir.fresh 8) xs) dev ino).1

/-- The context after the anchor `path` is stored with the text `val`. -/
def put_anchor (d : duc) (path val : String) : duc :=
  { d with db := (db_put d.db (bytes path) (bytes val) 0).1 }

/-- The store of the path resolution scenario of §8, with name arrays of 256
bytes: anchor `/data` for (1, 100); the record of (1, 100) holds the
directory `sub` with identity (2, 200); the record of (2, 200) holds the file
`file.txt` of size 42, which has the identity (2, 201) and no record. -/
def scenario : duc :=
  put_anchor
    (put_record 256
      (put_record 256 ctx_empty 1 100 [⟨bytes "sub", 42, 16877, 2, 200⟩])
      2 200 [⟨bytes "file.txt", 42, 33188, 2, 201⟩])
    "/data" "1 100"

/-! ## Predicates used by the theorems -/

/-- Allocation invariant of a directory: the slots are those of the capacity,
the entries fit, the capacity is not zero. -/
def ducdir.alloc_ok (dir : ducdir) : Prop :=
  dir.ent_list.length = dir.ent_max ∧ dir.ent_count ≤ dir.ent_max ∧ 0 < dir.ent_max

instance (dir : ducdir) : Decidable dir.alloc_ok := by
  unfold ducdir.alloc_ok
  infer_instance

/-- An entry as `ducdir_add_ent` writes it: the name array is filled by
`strncpy`, the numbers have the values of their C types. -/
def ducent.wf (M : Nat) (e : ducent) : Prop :=
  strncpy e.name M = e.name ∧ -(2 ^ 63 : Int) ≤ e.size ∧ e.size < 2 ^ 63 ∧ e.mode < 2 ^ 32
    ∧ e.dev < 2 ^ 64 ∧ e.ino < 2 ^ 64

instance (M : Nat) (e : ducent) : Decidable (e.wf M) := by
  unfold ducent.wf
  infer_instance

instance (a : add_args) : Decidable a.typed := by
  unfold add_args.typed
  infer_instance

/-- The cached total is the wrapped sum of the sizes of the entries. -/
def ducdir.total_ok (dir : ducdir) : Prop :=
  dir.alloc_ok ∧ dir.size_total = wrap_off ((dir.entries.map ducent.size).sum)

instance (dir : ducdir) : Decidable dir.total_ok := by
  unfold ducdir.total_ok
  infer_instance

/-- The library sort rearranges its input. -/
def Qsort.permutes (q : Qsort) : Prop := ∀ cmp l, (q cmp l).Perm l

/-- A directory with the names `y`, `x`, `x`. -/
def sample_dir : ducdir :=
  add_all 256 ctx_empty (ducdir.fresh 1)
    [⟨bytes "y", 3, 0, 1, 2⟩, ⟨bytes "x", 1, 0, 1, 3⟩, ⟨bytes "x", 2, 0, 1, 4⟩]

/-- A comparator as `qsort` requires it: a three-way comparison, negative,
zero or positive, of a total preorder. -/
def three_way (cmp : ducent → ducent → Int) : Prop :=
  (∀ a b, cmp a b < 0 ↔ 0 < cmp b a) ∧ (∀ a b c, cmp a b ≤ 0 → cmp b c ≤ 0 → cmp a c ≤ 0)

/-- The store with one record, for (1, 100), that holds three files of the
sizes 1, 2 and 3, in this order. -/
def rising : duc :=
  put_record 256 ctx_empty 1 100
    [⟨bytes "a", 1, 33188, 1, 101⟩, ⟨bytes "b", 2, 33188, 1, 102⟩, ⟨bytes "c", 3, 33188, 1, 103⟩]

/-- The lengths at which the loop `while(l > 0)` of `duc_opendir` calls
`db_get`, in the order of the calls (same rounds as `find_anchor`). -/
def anchor_tries (db : Store) (p : List Nat) : Nat → Nat → List Nat
  | 0, _ => []
  | fuel + 1, l =>
    if l > 0 then
      match db_get db (p.take l) with
      | some _ => [l]
      | none => l :: anchor_tries db p fuel (skip_to_sep p (l - 1))
    else []

/-- Lengths of the candidate keys of a canonical path `p`: the whole path,
every length `l` with `1 < l < |p|` and `p[l] = '/'`, and 1 (the root `/`). -/
def cand_len (p : List Nat) (j : Nat) : Prop :=
  j = p.length ∨ (1 < j ∧ j < p.length ∧ p.getD j 0 = 47) ∨ j = 1

instance (p : List Nat) (j : Nat) : Decidable (cand_len p j) := by
  unfold cand_len
  infer_instance

/-- Lengths tried by the loop started at `l`: `l` itself and, below it, 1 and
the positions of a separator. -/
def tried (p : List Nat) (l j : Nat) : Prop :=
  0 < j ∧ (j = l ∨ (j < l ∧ (j = 1 ∨ p.getD j 0 = 47)))

instance (p : List Nat) (l j : Nat) : Decidable (tried p l j) := by
  unfold tried
  infer_instance

/-- Components of the remainder of a path: the pieces between `/`, empty
pieces skipped. -/
def components (r : List Nat) : List (List Nat) := split_tok r []

/-- One step of the descent as the specification words it: look the component
up with `duc_finddir` in the directory that is open, open the identity of the
entry found with `duc_opendirat`. -/
def descent_step (M : Nat) (q : Qsort) (cur : Option ducdir × duc) (c : List Nat) :
    Option ducdir × duc :=
  match cur with
  | (none, d) => (none, d)
  | (some dir, d) =>
    match duc_finddir d dir c with
    | (some i, d1) =>
      duc_opendirat M q d1 (dir.ent_list.getD i ducent.blank).dev
        (dir.ent_list.getD i ducent.blank).ino
    | (none, d1) => (none, d1)

/-- The descent as the specification words it: open the anchor identity, then
take one step per component, in order. -/
def descent_spec (M : Nat) (q : Qsort) (d : duc) (dev ino : Nat) (comps : List (List Nat)) :
    Option ducdir × duc :=
  comps.foldl (descent_step M q) (duc_opendirat M q d dev ino)

/-- A name of 255 bytes, the longest a file name can be. -/
def long_name : List Nat := List.replicate 255 97

/-- A store with the anchor `/` for (1, 1); the record of (1, 1) holds the
directory `long_name` with identity (1, 2); the record of (1, 2) holds the
directory `b` with identity (1, 3); the record of (1, 3) holds the file `c`. -/
def deep : duc :=
  put_anchor
    (put_record 256
      (put_record 256
        (put_record 256 ctx_empty 1 1 [⟨long_name, 12, 16877, 1, 2⟩])
        1 2 [⟨bytes "b", 5, 16877, 1, 3⟩])
      1 3 [⟨bytes "c", 5, 33188, 1, 4⟩])
    "/" "1 1"

/-- The canonical path `/aaa...a/b` (255 times `a`), 258 bytes. -/
def path_long_b : List Nat := 47 :: long_name ++ bytes "/b"

/-- The canonical path `/aaa...a/missing` (255 times `a`), 264 bytes. -/
def path_long_missing : List Nat := 47 :: long_name ++ bytes "/missing"

/-- The context whose store holds, under the record key of (1, 100), the three
bytes 5, `a`, `b`: a name field that announces five bytes where two are left. -/
def cut_record : duc :=
  { db := (db_put db_empty (record_key 1 100) [5, 97, 98] 0).1, err := duc_errno.DUC_OK }

/-- A full directory of capacity 1 holding the file `a`. -/
def full_dir : ducdir := add_all 256 ctx_empty (ducdir.fresh 1) [⟨bytes "a", 5, 33188, 1, 2⟩]

/-- The text that `snprintf` formats for `"%jd/%jd"`: `dev` and `ino` read as
signed 64-bit integers, in decimal, with a `/` between them. -/
def key_text (dev ino : Nat) : List Nat :=
  fmt_jd (u64_to_off dev) ++ 47 :: fmt_jd (u64_to_off ino)

/-- The text `<dev>/<ino>` as the specification words it: the decimal digits
of `dev`, a `/`, the decimal digits of `ino`. -/
def key_text_spec (dev ino : Nat) : List Nat :=
  (Nat.toDigits 10 dev).map Char.toNat ++ 47 :: (Nat.toDigits 10 ino).map Char.toNat

/-- The context after the record of (2^44, 10^16) is written with the one
entry `x`. -/
def long_key_store : duc :=
  put_record 256 ctx_empty (2 ^ 44) (10 ^ 16) [⟨bytes "x", 9, 33188, 2 ^ 44, 7⟩]

/-- The results of `k` successive `duc_readdir` calls, with the directory and
the context after the last call. -/
def readdir_seq : Nat → duc → ducdir → List (Option Nat) × ducdir × duc
  | 0, d, dir => ([], dir, d)
  | k + 1, d, dir =>
    ((duc_readdir d dir).1 :: (readdir_seq k (duc_readdir d dir).2.2 (duc_readdir d dir).2.1).1,
     (readdir_seq k (duc_readdir d dir).2.2 (duc_readdir d dir).2.1).2)

/-- Value of a text printed by `fmt_jd`. -/
def parse_jd (s : List Nat) : Int :=
  match s with
  | 45 :: t => - Int.ofNat (digits_val t)
  | t => Int.ofNat (digits_val t)

/-- The context whose store holds, under the record key of (1, 100), the bytes
of the entry `file.txt` followed by the three bytes 5, `a`, `b`. -/
def cut_after_one : duc :=
  { db := (db_put db_empty (record_key 1 100)
      (encode_entries [stored 256 ⟨bytes "file.txt", 42, 33188, 2, 201⟩] ++ [5, 97, 98]) 0).1,
    err := duc_errno.DUC_OK }

/-! ## Theorems -/

theorem take_succ_set_eq (l : List ducent) (n : Nat) (e : ducent) (h : n < l.length) :
    (l.set n e).take (n + 1) = l.take n ++ [e] := by
  induction l generalizing n with
  | nil => simp at h
  | cons x xs ih =>
    cases n with
    | zero => simp
    | succ k =>
      simp only [List.length_cons, Nat.add_lt_add_iff_right] at h
      simp [ih k h]

theorem add_ent_true (M : Nat) (d : duc) (dir : ducdir) (name : List Nat) (size : Int)
    (mode dev ino : Nat) (h : dir.alloc_ok) :
    (ducdir_add_ent M true d dir name size mode dev ino).1.alloc_ok ∧
    (ducdir_add_ent M true d dir name size mode dev ino).1.entries
      = dir.entries ++ [⟨strncpy name M, size, mode, dev, ino⟩] ∧
    (ducdir_add_ent M true d dir name size mode dev ino).1.ent_count = dir.ent_count + 1 ∧
    (ducdir_add_ent M true d dir name size mode dev ino).1.size_total
      = wrap_off (dir.size_total + size) ∧
    (ducdir_add_ent M true d dir name size mode dev ino).1.ent_cur = dir.ent_cur ∧
    (ducdir_add_ent M true d dir name size mode dev ino).2 = (d, 0) := by
  obtain ⟨hl, hc, hm⟩ := h
  by_cases hg : dir.ent_count ≥ dir.ent_max
  · have hcm : dir.ent_count = dir.ent_max := by omega
    have hre : realloc dir.ent_list (dir.ent_max * 2)
        = dir.ent_list ++ List.replicate dir.ent_max ducent.blank := by
      unfold realloc
      rw [List.take_of_length_le (by omega), hl]
      congr 2
      omega
    simp only [ducdir_add_ent, ducdir.alloc_ok, ducdir.entries, hg, decide_True, Bool.not_true,
      Bool.and_false, if_true, hre, Bool.false_eq_true, if_false]
    refine ⟨⟨by simp [hl]; omega, by omega, by omega⟩, ?_, trivial, trivial, trivial, trivial⟩
    rw [take_succ_set_eq _ _ _ (by simp [hl]; omega), hcm, ← hl]
    simp
  · have hlt : dir.ent_count < dir.ent_list.length := by omega
    simp only [ducdir_add_ent, ducdir.alloc_ok, ducdir.entries, hg, decide_False, Bool.false_and,
      Bool.false_eq_true, if_false]
    refine ⟨⟨by simp [hl], by omega, hm⟩, ?_, trivial, trivial, trivial, trivial⟩
    exact take_succ_set_eq _ _ _ hlt

theorem new_alloc_ok (ok : Bool) (d : duc) (c : Nat) (dir0 : ducdir) (hc : 0 < c)
    (h0 : (ducdir_new ok d c).1 = some dir0) :
    dir0.alloc_ok ∧ dir0.entries = [] ∧ dir0.ent_count = 0 ∧ dir0.size_total = 0
      ∧ dir0.ent_max = c := by
  cases ok with
  | false => simp [ducdir_new] at h0
  | true =>
    simp only [ducdir_new, if_true, Option.some.injEq] at h0
    subst h0
    simp [ducdir.alloc_ok, ducdir.entries, hc]

theorem add_one_true (M : Nat) (d : duc) (dir : ducdir) (a : add_args) (h : dir.alloc_ok) :
    (add_one M true d dir a).1.alloc_ok ∧
    (add_one M true d dir a).1.entries = dir.entries ++ [stored M a] ∧
    (add_one M true d dir a).1.ent_count = dir.ent_count + 1 ∧
    (add_one M true d dir a).1.size_total = wrap_off (dir.size_total + a.size) ∧
    (add_one M true d dir a).1.ent_cur = dir.ent_cur ∧
    (add_one M true d dir a).2 = (d, 0) :=
  add_ent_true M d dir a.name a.size a.mode a.dev a.ino h

/-- A call that returns 0 acts as the call whose `realloc` request succeeds. -/
theorem add_one_success (M : Nat) (ok : Bool) (d : duc) (dir : ducdir) (a : add_args)
    (h : (add_one M ok d dir a).2.2 = 0) : add_one M ok d dir a = add_one M true d dir a := by
  cases ok with
  | true => rfl
  | false =>
    by_cases hg : dir.ent_count ≥ dir.ent_max
    · simp [add_one, ducdir_add_ent, hg] at h
    · simp [add_one, ducdir_add_ent, hg]

theorem add_all_append (M : Nat) (d : duc) (dir : ducdir) (xs ys : List add_args) :
    add_all M d dir (xs ++ ys) = add_all M d (add_all M d dir xs) ys := by
  simp [add_all, List.foldl_append]

theorem add_all_spec (M : Nat) (d : duc) (xs : List add_args) :
    ∀ dir : ducdir, dir.alloc_ok →
      (add_all M d dir xs).alloc_ok ∧
      (add_all M d dir xs).entries = dir.entries ++ xs.map (stored M) ∧
      (add_all M d dir xs).ent_count = dir.ent_count + xs.length ∧
      (add_all M d dir xs).ent_cur = dir.ent_cur := by
  induction xs with
  | nil => intro dir h; simp [add_all, h]
  | cons a as ih =>
    intro dir h
    obtain ⟨h1, h2, h3, _, h5, _⟩ := add_one_true M d dir a h
    obtain ⟨i1, i2, i3, i4⟩ := ih _ h1
    have e : add_all M d dir (a :: as) = add_all M d (add_one M true d dir a).1 as := rfl
    rw [e]
    refine ⟨i1, ?_, ?_, ?_⟩
    · rw [i2, h2]; simp
    · rw [i3, h3]; simp; omega
    · rw [i4, h5]

/-! ### The codec -/

theorem varint_dec_enc (n : Nat) : ∀ (v : Nat) (rest : List Nat), v < 128 ^ (n + 1) →
    varint_dec (varint_enc n v ++ rest) = (v, rest) := by
  induction n with
  | zero =>
    intro v rest h
    have hv : v < 128 := by simpa using h
    simp [varint_enc, varint_dec, Nat.mod_eq_of_lt hv, hv]
  | succ n ih =>
    intro v rest h
    by_cases hv : v < 128
    · simp [varint_enc, varint_dec, hv]
    · have hq : v / 128 < 128 ^ (n + 1) := by
        rw [Nat.div_lt_iff_lt_mul (by norm_num)]
        calc v < 128 ^ (n + 1 + 1) := h
          _ = 128 ^ (n + 1) * 128 := by rw [pow_succ]
      have hb : ¬ (128 + v % 128 < 128) := by omega
      simp only [varint_enc, hv, if_false, List.cons_append, varint_dec, hb, ih _ rest hq]
      congr 1
      omega

theorem varint_enc_ne_nil (n v : Nat) : varint_enc n v ≠ [] := by
  cases n with
  | zero => simp [varint_enc]
  | succ n => unfold varint_enc; split <;> simp

theorem get_put_varint (v : Nat) (rest : List Nat) :
    buffer_get_varint (buffer_put_varint v ++ rest) = (v % 2 ^ 64, rest) := by
  have h : v % 2 ^ 64 < 128 ^ (9 + 1) := by
    have := Nat.mod_lt v (show 0 < 2 ^ 64 by norm_num)
    calc v % 2 ^ 64 < 2 ^ 64 := this
      _ ≤ 128 ^ (9 + 1) := by norm_num
  simp only [buffer_get_varint, buffer_put_varint, varint_dec_enc 9 _ rest h]
  simp

theorem put_varint_ne_nil (v : Nat) : buffer_put_varint v ≠ [] := varint_enc_ne_nil _ _

theorem cstr_idem (s : List Nat) : cstr (cstr s) = cstr s := by
  unfold cstr
  induction s with
  | nil => rfl
  | cons a as ih =>
    by_cases ha : a = 0
    · simp [ha]
    · simp [List.takeWhile_cons, ha, ih]

theorem get_put_string (s rest : List Nat) (h : strlen s < 2 ^ 64) :
    buffer_get_string (buffer_put_string s ++ rest) = (cstr s, rest) := by
  simp only [buffer_get_string, buffer_put_string, List.append_assoc, get_put_varint,
    Nat.mod_eq_of_lt h]
  simp [strlen]

theorem put_string_ne_nil (s : List Nat) : buffer_put_string s ≠ [] := by
  simp [buffer_put_string, put_varint_ne_nil]

theorem put_ent_ne_nil (e : ducent) : put_ent e ≠ [] := by
  simp [put_ent, put_string_ne_nil]

/-! ### Names -/

theorem cstr_no_zero (s : List Nat) : ∀ c ∈ cstr s, c ≠ 0 := by
  intro c hc
  have := List.mem_takeWhile_imp hc
  simpa using this

theorem cstr_of_no_zero (s : List Nat) (h : ∀ c ∈ s, c ≠ 0) : cstr s = s := by
  unfold cstr
  rw [List.takeWhile_eq_self_iff]
  intro c hc
  simpa using h c hc

theorem cstr_append_zeros (t : List Nat) (k : Nat) (h : ∀ c ∈ t, c ≠ 0) :
    cstr (t ++ List.replicate k 0) = t := by
  unfold cstr
  induction t with
  | nil => cases k <;> simp [List.replicate]
  | cons a as ih =>
    have ha : a ≠ 0 := h a (by simp)
    have := ih (fun c hc => h c (by simp [hc]))
    simp [List.takeWhile_cons, ha, this]

/-- The string read back from the array that `strncpy` fills: the first `n`
bytes of the source string. -/
theorem cstr_strncpy (s : List Nat) (n : Nat) : cstr (strncpy s n) = (cstr s).take n := by
  unfold strncpy
  apply cstr_append_zeros
  intro c hc
  exact cstr_no_zero s c (List.mem_of_mem_take hc)

theorem strncpy_cstr (s : List Nat) (n : Nat) : strncpy (cstr s) n = strncpy s n := by
  simp [strncpy, cstr_idem]

theorem strncpy_idem (s : List Nat) (n : Nat) : strncpy (strncpy s n) n = strncpy s n := by
  have h := cstr_strncpy s n
  unfold strncpy at h ⊢
  rw [h]
  simp only [List.take_take, Nat.min_self, List.length_take]
  congr 2
  omega

theorem strncpy_length (s : List Nat) (n : Nat) : (strncpy s n).length = n := by
  simp [strncpy]
  omega

theorem strlen_strncpy_le (s : List Nat) (n : Nat) : strlen (strncpy s n) ≤ n := by
  simp [strlen, cstr_strncpy]

/-! ### Reading back what was written -/

theorem stored_wf (M : Nat) (a : add_args) (h : a.typed) : (stored M a).wf M := by
  obtain ⟨h1, h2, h3, h4, h5⟩ := h
  exact ⟨strncpy_idem _ _, h1, h2, h3, h4, h5⟩

theorem off_roundtrip (s : Int) (h1 : -(2 ^ 63 : Int) ≤ s) (h2 : s < 2 ^ 63) :
    u64_to_off (off_to_u64 s % 2 ^ 64) = s := by
  unfold u64_to_off off_to_u64 wrap_off
  have h0 : (0 : Int) ≤ s % 2 ^ 64 := Int.emod_nonneg _ (by norm_num)
  have hlt : s % 2 ^ 64 < 2 ^ 64 := Int.emod_lt_of_pos _ (by norm_num)
  have hn : ((s % 2 ^ 64).toNat % 2 ^ 64 : Nat) = (s % 2 ^ 64).toNat := by
    apply Nat.mod_eq_of_lt
    omega
  rw [hn]
  have : Int.ofNat (s % 2 ^ 64).toNat = s % 2 ^ 64 := by
    exact Int.toNat_of_nonneg h0
  rw [this]
  omega

theorem read_ent_put (M : Nat) (hM : M < 2 ^ 64) (d : duc) (dir : ducdir) (e : ducent)
    (rest : List Nat) (he : e.wf M) (hd : dir.alloc_ok) :
    (read_ent M d dir (put_ent e ++ rest)).1.alloc_ok ∧
    (read_ent M d dir (put_ent e ++ rest)).1.entries = dir.entries ++ [e] ∧
    (read_ent M d dir (put_ent e ++ rest)).1.ent_count = dir.ent_count + 1 ∧
    (read_ent M d dir (put_ent e ++ rest)).2 = (d, rest) := by
  obtain ⟨hn, h1, h2, h3, h4, h5⟩ := he
  have hlen : strlen e.name < 2 ^ 64 := by
    have := strlen_strncpy_le e.name M
    rw [hn] at this
    omega
  have hrd : read_ent M d dir (put_ent e ++ rest)
      = ((ducdir_add_ent M true d dir (cstr e.name) e.size e.mode e.dev e.ino).1,
         (ducdir_add_ent M true d dir (cstr e.name) e.size e.mode e.dev e.ino).2.1, rest) := by
    simp only [read_ent, put_ent, List.append_assoc, get_put_string _ _ hlen, get_put_varint,
      off_roundtrip _ h1 h2, Nat.mod_eq_of_lt h4, Nat.mod_eq_of_lt h5]
    have hm : e.mode % 2 ^ 64 % 2 ^ 32 = e.mode := by omega
    rw [hm]
  obtain ⟨a1, a2, a3, _, _, a6⟩ := add_ent_true M d dir (cstr e.name) e.size e.mode e.dev e.ino hd
  rw [hrd]
  refine ⟨a1, ?_, a3, ?_⟩
  · rw [a2, strncpy_cstr, hn]
  · simp [a6]

theorem encode_entries_append (xs ys : List ducent) :
    encode_entries (xs ++ ys) = encode_entries xs ++ encode_entries ys := by
  induction xs with
  | nil => rfl
  | cons x xs ih => simp [encode_entries, ih]

/-- Reading the bytes written for well-formed entries appends these entries,
whatever number of rounds beyond the length of the buffer is allowed. -/
theorem read_loop_encode (M : Nat) (hM : M < 2 ^ 64) (es : List ducent) :
    ∀ (fuel : Nat) (d : duc) (dir : ducdir), (∀ e ∈ es, e.wf M) → dir.alloc_ok →
      (encode_entries es).length ≤ fuel →
      (read_loop M fuel d dir (encode_entries es)).1.alloc_ok ∧
      (read_loop M fuel d dir (encode_entries es)).1.entries = dir.entries ++ es ∧
      (read_loop M fuel d dir (encode_entries es)).1.ent_count = dir.ent_count + es.length ∧
      (read_loop M fuel d dir (encode_entries es)).2 = d := by
  induction es with
  | nil =>
    intro fuel d dir _ hd _
    cases fuel <;> simp [read_loop, encode_entries, hd]
  | cons e es ih =>
    intro fuel d dir hw hd hf
    have hne : encode_entries (e :: es) ≠ [] := by
      simp [encode_entries, put_ent_ne_nil]
    have hlen : 0 < (put_ent e).length := List.length_pos.mpr (put_ent_ne_nil e)
    cases fuel with
    | zero =>
      simp only [encode_entries, List.length_append] at hf
      omega
    | succ fuel =>
      obtain ⟨r1, r2, r3, r4⟩ := read_ent_put M hM d dir e (encode_entries es)
        (hw e (by simp)) hd
      have hstep : read_loop M (fuel + 1) d dir (encode_entries (e :: es))
          = read_loop M fuel d (read_ent M d dir (put_ent e ++ encode_entries es)).1
              (encode_entries es) := by
        have hne2 : put_ent e ++ encode_entries es ≠ [] := hne
        rw [show encode_entries (e :: es) = put_ent e ++ encode_entries es from rfl]
        rw [read_loop]
        simp only [hne2, if_false, r4]
      have hf2 : (encode_entries es).length ≤ fuel := by
        simp only [encode_entries, List.length_append] at hf
        omega
      obtain ⟨i1, i2, i3, i4⟩ := ih fuel d _ (fun x hx => hw x (by simp [hx])) r1 hf2
      rw [hstep]
      refine ⟨i1, ?_, ?_, i4⟩
      · rw [i2, r2]; simp
      · rw [i3, r3]; simp; omega

theorem write_success (buf_ok : Bool) (put_rc : Int) (d : duc) (dir : ducdir) (dev ino : Nat)
    (hw : (ducdir_write buf_ok put_rc d dir dev ino).2 = 0) :
    (ducdir_write buf_ok put_rc d dir dev ino).1.db (record_key dev ino)
        = some (encode_entries dir.entries) ∧
    (ducdir_write buf_ok put_rc d dir dev ino).1.err = d.err := by
  cases buf_ok with
  | false => simp [ducdir_write] at hw
  | true =>
    by_cases hr : put_rc = 0
    · subst hr
      simp [ducdir_write, db_put]
    · simp [ducdir_write, db_put, hr] at hw

theorem read_of_get (M : Nat) (d : duc) (dev ino : Nat) (val : List Nat)
    (h : d.db (record_key dev ino) = some val) :
    ducdir_read M d dev ino
      = (some (read_loop M val.length d
          { ent_list := List.replicate 8 ducent.blank, size_total := 0, ent_cur := 0,
            ent_count := 0, ent_max := 8 } val).1,
         (read_loop M val.length d
          { ent_list := List.replicate 8 ducent.blank, size_total := 0, ent_cur := 0,
            ent_count := 0, ent_max := 8 } val).2) := by
  simp [ducdir_read, ducdir_new, db_get, h]

theorem read_of_get_none (M : Nat) (d : duc) (dev ino : Nat)
    (h : d.db (record_key dev ino) = none) :
    ducdir_read M d dev ino = (none, { d with err := duc_errno.DUC_E_PATH_NOT_FOUND }) := by
  simp [ducdir_read, ducdir_new, db_get, h]

theorem dir8_alloc_ok :
    ({ ent_list := List.replicate 8 ducent.blank, size_total := 0, ent_cur := 0,
       ent_count := 0, ent_max := 8 } : ducdir).alloc_ok := by
  simp [ducdir.alloc_ok]

theorem record_key_length (dev ino : Nat) (hkey : (mkkey dev ino 32).2 ≤ 32) :
    (record_key dev ino).length = (mkkey dev ino 32).2 := by
  have e : mkkey dev ino 32
      = ((key_text dev ino).take (32 - 1), (key_text dev ino).length) := rfl
  unfold record_key
  rw [e] at hkey ⊢
  simp only [List.length_take, List.length_append, List.length_singleton, Nat.reduceSub]
    at hkey ⊢
  omega

/-- C1. Round trip, for a pair `(dev, ino)` whose key length `keyl`, as
`mkkey` returns it, is at most the 32 bytes of the key array: a directory
built by `ducdir_new` and successful `ducdir_add_ent` calls, once written with
success by `ducdir_write` under `(dev, ino)`, is read back by `ducdir_read`
for `(dev, ino)` with the same entries in the same order; the names are the
stored names, the first `M` bytes of the names given.  The key handed to the
store has `keyl` bytes, all of them inside the key array. -/
theorem ducdir_write_read_roundtrip (M c : Nat) (hM : M < 2 ^ 64) (hc : 0 < c) (ok : Bool)
    (d : duc) (dir0 : ducdir) (h0 : (ducdir_new ok d c).1 = some dir0)
    (xs : List add_args) (hx : ∀ a ∈ xs, a.typed) (buf_ok : Bool) (put_rc : Int)
    (dev ino : Nat) (hkey : (mkkey dev ino 32).2 ≤ 32)
    (hw : (ducdir_write buf_ok put_rc d (add_all M d dir0 xs) dev ino).2 = 0) :
    ((record_key dev ino).length = (mkkey dev ino 32).2 ∧ (record_key dev ino).length ≤ 32) ∧
    ∃ dir1 : ducdir,
      (ducdir_read M (ducdir_write buf_ok put_rc d (add_all M d dir0 xs) dev ino).1 dev ino).1
        = some dir1 ∧
      dir1.entries = (add_all M d dir0 xs).entries ∧
      dir1.ent_count = (add_all M d dir0 xs).ent_count ∧
      dir1.entries = xs.map (stored M) ∧
      dir1.entries.map ducent.name_str = xs.map (fun a => (cstr a.name).take M) := by
  refine ⟨⟨record_key_length dev ino hkey, by rw [record_key_length dev ino hkey]; exact hkey⟩,
    ?_⟩
  obtain ⟨n1, n2, n3, _, _⟩ := new_alloc_ok ok d c dir0 hc h0
  obtain ⟨b1, b2, b3, _⟩ := add_all_spec M d xs dir0 n1
  rw [n2, List.nil_append] at b2
  obtain ⟨w1, _⟩ := write_success buf_ok put_rc d _ dev ino hw
  rw [b2] at w1
  have hwf : ∀ e ∈ xs.map (stored M), e.wf M := by
    intro e he
    obtain ⟨a, ha, rfl⟩ := List.mem_map.mp he
    exact stored_wf M a (hx a ha)
  obtain ⟨r1, r2, r3, _⟩ := read_loop_encode M hM (xs.map (stored M))
    (encode_entries (xs.map (stored M))).length
    (ducdir_write buf_ok put_rc d (add_all M d dir0 xs) dev ino).1 _ hwf dir8_alloc_ok
    (Nat.le_refl _)
  rw [read_of_get M _ dev ino _ w1]
  refine ⟨_, rfl, ?_, ?_, ?_, ?_⟩
  · rw [r2, b2]; simp [ducdir.entries]
  · rw [r3, b3, n3]; simp
  · rw [r2]; simp [ducdir.entries]
  · rw [r2]
    simp [ducdir.entries, ducent.name_str, stored, cstr_strncpy]

/-- Witness of C1: two entries, one with a name longer than the name array,
written under (1, 100), whose key text has 5 bytes. -/
theorem ducdir_write_read_roundtrip_witness :
    (4 : Nat) < 2 ^ 64 ∧ 0 < 1 ∧ (mkkey 1 100 32).2 ≤ 32 ∧
    (ducdir_new true ⟨db_empty, duc_errno.DUC_OK⟩ 1).1
      = some ⟨[ducent.blank], 0, 0, 0, 1⟩ ∧
    (∀ a ∈ [(⟨bytes "file.txt", 42, 33188, 2, 201⟩ : add_args), ⟨bytes "sub", 7, 16877, 2, 200⟩],
      a.typed) ∧
    (ducdir_write true 0 ⟨db_empty, duc_errno.DUC_OK⟩
      (add_all 4 ⟨db_empty, duc_errno.DUC_OK⟩ ⟨[ducent.blank], 0, 0, 0, 1⟩
        [⟨bytes "file.txt", 42, 33188, 2, 201⟩, ⟨bytes "sub", 7, 16877, 2, 200⟩]) 1 100).2 = 0 ∧
    ((record_key 1 100).length = (mkkey 1 100 32).2 ∧ (record_key 1 100).length ≤ 32) ∧
    ∃ dir1 : ducdir,
      (ducdir_read 4 (ducdir_write true 0 ⟨db_empty, duc_errno.DUC_OK⟩
        (add_all 4 ⟨db_empty, duc_errno.DUC_OK⟩ ⟨[ducent.blank], 0, 0, 0, 1⟩
          [⟨bytes "file.txt", 42, 33188, 2, 201⟩, ⟨bytes "sub", 7, 16877, 2, 200⟩]) 1 100).1
          1 100).1 = some dir1 ∧
      dir1.entries = (add_all 4 ⟨db_empty, duc_errno.DUC_OK⟩ ⟨[ducent.blank], 0, 0, 0, 1⟩
          [⟨bytes "file.txt", 42, 33188, 2, 201⟩, ⟨bytes "sub", 7, 16877, 2, 200⟩]).entries ∧
      dir1.ent_count = (add_all 4 ⟨db_empty, duc_errno.DUC_OK⟩ ⟨[ducent.blank], 0, 0, 0, 1⟩
          [⟨bytes "file.txt", 42, 33188, 2, 201⟩, ⟨bytes "sub", 7, 16877, 2, 200⟩]).ent_count ∧
      dir1.entries = [(⟨bytes "file.txt", 42, 33188, 2, 201⟩ : add_args),
          ⟨bytes "sub", 7, 16877, 2, 200⟩].map (stored 4) ∧
      dir1.entries.map ducent.name_str
        = [(⟨bytes "file.txt", 42, 33188, 2, 201⟩ : add_args),
            ⟨bytes "sub", 7, 16877, 2, 200⟩].map (fun a => (cstr a.name).take 4) :=
  ⟨by decide, by decide, by decide, by rfl, by decide, by decide,
   ducdir_write_read_roundtrip 4 1 (by decide) (by decide) true ⟨db_empty, duc_errno.DUC_OK⟩
     ⟨[ducent.blank], 0, 0, 0, 1⟩ rfl _ (by decide) true 0 1 100 (by decide) (by decide)⟩

/-! ### Totals -/

theorem wrap_off_add (x y : Int) : wrap_off (wrap_off x + y) = wrap_off (x + y) := by
  unfold wrap_off
  omega

theorem wrap_off_of_range (x : Int) (h1 : -(2 ^ 63 : Int) ≤ x) (h2 : x < 2 ^ 63) :
    wrap_off x = x := by
  unfold wrap_off
  omega

theorem sum_nonneg_of_nonneg (l : List Int) (h : ∀ x ∈ l, 0 ≤ x) : 0 ≤ l.sum := by
  induction l with
  | nil => simp
  | cons a as ih =>
    have h1 := h a (by simp)
    have h2 := ih (fun x hx => h x (by simp [hx]))
    simp only [List.sum_cons]
    omega

theorem add_ent_total_ok (M : Nat) (d : duc) (dir : ducdir) (name : List Nat) (size : Int)
    (mode dev ino : Nat) (h : dir.total_ok) :
    (ducdir_add_ent M true d dir name size mode dev ino).1.total_ok := by
  obtain ⟨ha, ht⟩ := h
  obtain ⟨a1, a2, _, a4, _, _⟩ := add_ent_true M d dir name size mode dev ino ha
  refine ⟨a1, ?_⟩
  rw [a4, a2, ht, wrap_off_add]
  simp

theorem add_ent_ctx (M : Nat) (d : duc) (dir : ducdir) (name : List Nat) (size : Int)
    (mode dev ino : Nat) (h : dir.alloc_ok) :
    (ducdir_add_ent M true d dir name size mode dev ino).2.1 = d := by
  obtain ⟨_, _, _, _, _, a6⟩ := add_ent_true M d dir name size mode dev ino h
  rw [a6]

theorem read_loop_total_ok (M : Nat) : ∀ (fuel : Nat) (d : duc) (dir : ducdir) (b : List Nat),
    dir.total_ok → (read_loop M fuel d dir b).1.total_ok ∧ (read_loop M fuel d dir b).2 = d := by
  intro fuel
  induction fuel with
  | zero => intro d dir b h; exact ⟨h, rfl⟩
  | succ fuel ih =>
    intro d dir b h
    by_cases hb : b = []
    · simp [read_loop, hb, h]
    · rw [read_loop]
      simp only [hb, if_false]
      have hd : (read_ent M d dir b).2.1 = d := add_ent_ctx M d dir _ _ _ _ _ h.1
      have := ih (read_ent M d dir b).2.1 (read_ent M d dir b).1 (read_ent M d dir b).2.2
        (add_ent_total_ok M d dir _ _ _ _ _ h)
      rw [hd] at this ⊢
      exact this

theorem dir8_total_ok :
    ({ ent_list := List.replicate 8 ducent.blank, size_total := 0, ent_cur := 0,
       ent_count := 0, ent_max := 8 } : ducdir).total_ok := by
  refine ⟨dir8_alloc_ok, ?_⟩
  simp [ducdir.entries, wrap_off]

theorem read_total_ok (M : Nat) (d d1 : duc) (dev ino : Nat) (dir : ducdir)
    (h : ducdir_read M d dev ino = (some dir, d1)) : dir.total_ok ∧ d1 = d := by
  cases hv : d.db (record_key dev ino) with
  | none =>
    rw [read_of_get_none M d dev ino hv] at h
    simp at h
  | some val =>
    rw [read_of_get M d dev ino val hv] at h
    simp only [Prod.mk.injEq, Option.some.injEq] at h
    obtain ⟨h1, h2⟩ := h
    have := read_loop_total_ok M val.length d _ val dir8_total_ok
    rw [h1, h2] at this
    exact this

theorem opendirat_some (M : Nat) (q : Qsort) (d d1 : duc) (dev ino : Nat) (dir : ducdir)
    (h : duc_opendirat M q d dev ino = (some dir, d1)) :
    ∃ dir0, ducdir_read M d dev ino = (some dir0, d1) ∧
      dir = { dir0 with ent_list := q fn_comp_ent (dir0.ent_list.take dir0.ent_count)
                                      ++ dir0.ent_list.drop dir0.ent_count } := by
  unfold duc_opendirat at h
  cases hr : ducdir_read M d dev ino with
  | mk r1 r2 =>
    cases r1 with
    | none => simp [hr] at h
    | some dir0 =>
      simp only [hr, Prod.mk.injEq, Option.some.injEq] at h
      exact ⟨dir0, by rw [h.2], h.1.symm⟩

theorem opendirat_entries (M : Nat) (q : Qsort) (hq : q.permutes) (d d1 : duc) (dev ino : Nat)
    (dir : ducdir) (h : duc_opendirat M q d dev ino = (some dir, d1)) :
    ∃ dir0, ducdir_read M d dev ino = (some dir0, d1) ∧
      dir.entries = q fn_comp_ent dir0.entries ∧ dir.ent_count = dir0.ent_count ∧
      dir.size_total = dir0.size_total ∧ dir.ent_max = dir0.ent_max ∧
      dir.ent_cur = dir0.ent_cur ∧ dir.ent_list.length = dir0.ent_list.length := by
  obtain ⟨dir0, h1, h2⟩ := opendirat_some M q d d1 dev ino dir h
  refine ⟨dir0, h1, ?_, ?_, ?_, ?_, ?_, ?_⟩
  · subst h2
    have hl := (hq fn_comp_ent (dir0.ent_list.take dir0.ent_count)).length_eq
    obtain ⟨⟨a1, a2, _⟩, _⟩ := (read_total_ok M d d1 dev ino dir0 h1).1
    simp only [ducdir.entries]
    rw [List.take_append_of_le_length (by rw [hl]; simp; omega)]
    rw [List.take_of_length_le (by rw [hl]; simp)]
  all_goals subst h2
  · rfl
  · rfl
  · rfl
  · rfl
  · have hl := (hq fn_comp_ent (dir0.ent_list.take dir0.ent_count)).length_eq
    simp only [List.length_append, hl, List.length_take, List.length_drop]
    omega

/-! ### The insertion sort rearranges its input -/

theorem insert_le_perm (cmp : ducent → ducent → Int) (x : ducent) (l : List ducent) :
    (insert_le cmp x l).Perm (x :: l) := by
  induction l with
  | nil => simp [insert_le]
  | cons y ys ih =>
    unfold insert_le
    split
    · exact List.Perm.refl _
    · exact (List.Perm.cons y ih).trans (List.Perm.swap x y ys)

theorem qsort_insert_le_permutes : qsort_insert_le.permutes := by
  intro cmp l
  induction l with
  | nil => exact List.Perm.refl _
  | cons x xs ih =>
    exact (insert_le_perm cmp x _).trans (List.Perm.cons x ih)

theorem wrap_off_idem (x : Int) : wrap_off (wrap_off x) = wrap_off x := by
  unfold wrap_off
  omega

theorem add_all_size_total (M : Nat) (d : duc) (xs : List add_args) :
    ∀ dir : ducdir, dir.size_total = wrap_off dir.size_total →
      (add_all M d dir xs).size_total
        = wrap_off (dir.size_total + (xs.map add_args.size).sum) := by
  induction xs with
  | nil => intro dir h; simpa [add_all] using h
  | cons a as ih =>
    intro dir _
    have hst : (add_one M true d dir a).1.size_total = wrap_off (dir.size_total + a.size) := by
      simp [add_one, ducdir_add_ent]
    have e : add_all M d dir (a :: as) = add_all M d (add_one M true d dir a).1 as := rfl
    rw [e, ih _ (by rw [hst, wrap_off_idem]), hst, wrap_off_add]
    simp only [List.map_cons, List.sum_cons]
    congr 1
    omega

theorem add_all_total_ok (M : Nat) (d : duc) (xs : List add_args) :
    ∀ dir : ducdir, dir.total_ok → (add_all M d dir xs).total_ok := by
  induction xs with
  | nil => intro dir h; exact h
  | cons a as ih =>
    intro dir h
    exact ih _ (add_ent_total_ok M d dir a.name a.size a.mode a.dev a.ino h)

theorem total_ok_sizedir (dir : ducdir) (h : dir.total_ok) (hn : ∀ e ∈ dir.entries, 0 ≤ e.size)
    (hs : (dir.entries.map ducent.size).sum < 2 ^ 63) :
    duc_sizedir dir = (dir.entries.map ducent.size).sum := by
  have h0 : 0 ≤ (dir.entries.map ducent.size).sum := by
    apply sum_nonneg_of_nonneg
    intro x hx
    obtain ⟨e, he, rfl⟩ := List.mem_map.mp hx
    exact hn e he
  unfold duc_sizedir
  rw [h.2]
  exact wrap_off_of_range _ (by omega) hs

/-- C2. `duc_sizedir` is the sum of the sizes: after successful
`ducdir_add_ent` calls with non-negative sizes whose sum fits `off_t` it is the
sum of the sizes given and the sum of the sizes of the entries held; the latter
holds as well for a directory returned by `ducdir_read` and by `duc_opendirat`
(for a library sort that rearranges its input). -/
theorem duc_sizedir_is_sum (M : Nat) :
    (∀ (c : Nat) (ok : Bool) (d : duc) (dir0 : ducdir) (xs : List add_args),
      (ducdir_new ok d c).1 = some dir0 → (∀ a ∈ xs, 0 ≤ a.size) →
      (xs.map add_args.size).sum < 2 ^ 63 →
      duc_sizedir (add_all M d dir0 xs) = (xs.map add_args.size).sum ∧
      (0 < c → duc_sizedir (add_all M d dir0 xs)
        = ((add_all M d dir0 xs).entries.map ducent.size).sum)) ∧
    (∀ (d d1 : duc) (dev ino : Nat) (dir : ducdir),
      ducdir_read M d dev ino = (some dir, d1) → (∀ e ∈ dir.entries, 0 ≤ e.size) →
      (dir.entries.map ducent.size).sum < 2 ^ 63 →
      duc_sizedir dir = (dir.entries.map ducent.size).sum) ∧
    (∀ (q : Qsort) (d d1 : duc) (dev ino : Nat) (dir : ducdir), q.permutes →
      duc_opendirat M q d dev ino = (some dir, d1) → (∀ e ∈ dir.entries, 0 ≤ e.size) →
      (dir.entries.map ducent.size).sum < 2 ^ 63 →
      duc_sizedir dir = (dir.entries.map ducent.size).sum) := by
  refine ⟨?_, ?_, ?_⟩
  · intro c ok d dir0 xs h0 hn hs
    have h00 : dir0.size_total = 0 := by
      cases ok with
      | false => simp [ducdir_new] at h0
      | true =>
        simp only [ducdir_new, if_true, Option.some.injEq] at h0
        subst h0
        rfl
    have hsum0 : 0 ≤ (xs.map add_args.size).sum := by
      apply sum_nonneg_of_nonneg
      intro x hx
      obtain ⟨a, ha, rfl⟩ := List.mem_map.mp hx
      exact hn a ha
    have h1 : duc_sizedir (add_all M d dir0 xs) = (xs.map add_args.size).sum := by
      unfold duc_sizedir
      rw [add_all_size_total M d xs dir0 (by rw [h00]; rfl), h00, Int.zero_add]
      exact wrap_off_of_range _ (by omega) hs
    refine ⟨h1, ?_⟩
    intro hc
    obtain ⟨n1, n2, _, _, _⟩ := new_alloc_ok ok d c dir0 hc h0
    obtain ⟨_, b2, _, _⟩ := add_all_spec M d xs dir0 n1
    rw [h1, b2, n2]
    simp only [List.nil_append, List.map_map]
    rfl
  · intro d d1 dev ino dir h hn hs
    exact total_ok_sizedir dir (read_total_ok M d d1 dev ino dir h).1 hn hs
  · intro q d d1 dev ino dir hq h hn hs
    obtain ⟨dir0, h1, e1, _, e3, _, _, _⟩ := opendirat_entries M q hq d d1 dev ino dir h
    have ht := (read_total_ok M d d1 dev ino dir0 h1).1
    have hp : (dir.entries.map ducent.size).sum = (dir0.entries.map ducent.size).sum := by
      rw [e1]
      exact ((hq fn_comp_ent dir0.entries).map ducent.size).sum_eq
    unfold duc_sizedir
    rw [e3, ht.2, ← hp]
    have h0 : 0 ≤ (dir.entries.map ducent.size).sum := by
      apply sum_nonneg_of_nonneg
      intro x hx
      obtain ⟨e, he, rfl⟩ := List.mem_map.mp hx
      exact hn e he
    exact wrap_off_of_range _ (by omega) hs

/-- Witness of C2: three insertions into a directory of capacity 1, and the
record of (2, 200) of the scenario store read and opened. -/
theorem duc_sizedir_is_sum_witness :
    ((ducdir_new true ctx_empty 1).1 = some (ducdir.fresh 1) ∧
      (∀ a ∈ [(⟨bytes "a", 5, 0, 1, 2⟩ : add_args), ⟨bytes "b", 0, 0, 1, 3⟩,
          ⟨bytes "c", 7, 0, 1, 4⟩], 0 ≤ a.size) ∧
      (([(⟨bytes "a", 5, 0, 1, 2⟩ : add_args), ⟨bytes "b", 0, 0, 1, 3⟩,
          ⟨bytes "c", 7, 0, 1, 4⟩]).map add_args.size).sum < 2 ^ 63 ∧
      duc_sizedir (add_all 256 ctx_empty (ducdir.fresh 1)
        [⟨bytes "a", 5, 0, 1, 2⟩, ⟨bytes "b", 0, 0, 1, 3⟩, ⟨bytes "c", 7, 0, 1, 4⟩]) = 12 ∧
      0 < 1 ∧
      duc_sizedir (add_all 256 ctx_empty (ducdir.fresh 1)
        [⟨bytes "a", 5, 0, 1, 2⟩, ⟨bytes "b", 0, 0, 1, 3⟩, ⟨bytes "c", 7, 0, 1, 4⟩])
        = ((add_all 256 ctx_empty (ducdir.fresh 1)
            [⟨bytes "a", 5, 0, 1, 2⟩, ⟨bytes "b", 0, 0, 1, 3⟩,
              ⟨bytes "c", 7, 0, 1, 4⟩]).entries.map ducent.size).sum) ∧
    (ducdir_read 256 scenario 2 200
        = (some ((ducdir_read 256 scenario 2 200).1.getD (ducdir.fresh 0)), scenario) ∧
      duc_sizedir ((ducdir_read 256 scenario 2 200).1.getD (ducdir.fresh 0)) = 42) ∧
    (qsort_insert_le.permutes ∧
      duc_opendirat 256 qsort_insert_le scenario 2 200
        = (some ((duc_opendirat 256 qsort_insert_le scenario 2 200).1.getD (ducdir.fresh 0)),
           scenario) ∧
      duc_sizedir ((duc_opendirat 256 qsort_insert_le scenario 2 200).1.getD (ducdir.fresh 0))
        = 42) :=
  ⟨⟨rfl, by decide, by decide,
    ((duc_sizedir_is_sum 256).1 1 true ctx_empty (ducdir.fresh 1) _ rfl
      (by decide) (by decide)).1, by decide,
    ((duc_sizedir_is_sum 256).1 1 true ctx_empty (ducdir.fresh 1) _ rfl
      (by decide) (by decide)).2 (by decide)⟩,
   ⟨rfl, (duc_sizedir_is_sum 256).2.1 scenario scenario 2 200 _ rfl (by decide) (by decide)⟩,
   ⟨qsort_insert_le_permutes, rfl,
    (duc_sizedir_is_sum 256).2.2 qsort_insert_le scenario scenario 2 200 _
      qsort_insert_le_permutes rfl (by decide) (by decide)⟩⟩

theorem entries_getElem? (dir : ducdir) (i : Nat) (h : i < dir.ent_count) :
    dir.entries[i]? = dir.ent_list[i]? := by
  unfold ducdir.entries
  exact List.getElem?_take_of_lt h

/-- C5. Growth preserves contents: from any initial capacity `c >= 1`, after
any number of successful `ducdir_add_ent` calls the entries are the inserted
entries in insertion order, and one more successful call leaves the slots
`0 .. ent_count - 1` as they were and writes the new entry at index
`ent_count`. -/
theorem ducdir_add_ent_growth (M c : Nat) (hc : 0 < c) (ok : Bool) (d : duc) (dir0 : ducdir)
    (h0 : (ducdir_new ok d c).1 = some dir0) (xs : List add_args) (a : add_args) (ok1 : Bool)
    (hs : (add_one M ok1 d (add_all M d dir0 xs) a).2.2 = 0) :
    (add_all M d dir0 xs).entries = xs.map (stored M) ∧
    (add_all M d dir0 xs).ent_count = xs.length ∧
    (∀ i, i < (add_all M d dir0 xs).ent_count →
      (add_one M ok1 d (add_all M d dir0 xs) a).1.ent_list[i]?
        = (add_all M d dir0 xs).ent_list[i]?) ∧
    (add_one M ok1 d (add_all M d dir0 xs) a).1.ent_list[(add_all M d dir0 xs).ent_count]?
      = some (stored M a) ∧
    (add_one M ok1 d (add_all M d dir0 xs) a).1.ent_count
      = (add_all M d dir0 xs).ent_count + 1 ∧
    (add_one M ok1 d (add_all M d dir0 xs) a).1.entries = xs.map (stored M) ++ [stored M a] := by
  obtain ⟨n1, n2, n3, _, _⟩ := new_alloc_ok ok d c dir0 hc h0
  obtain ⟨b1, b2, b3, _⟩ := add_all_spec M d xs dir0 n1
  rw [n2, List.nil_append] at b2
  rw [n3, Nat.zero_add] at b3
  rw [add_one_success M ok1 d _ a hs]
  obtain ⟨a1, a2, a3, _, _, _⟩ := add_one_true M d (add_all M d dir0 xs) a b1
  refine ⟨b2, b3, ?_, ?_, a3, by rw [a2, b2]⟩
  · intro i hi
    rw [← entries_getElem? _ i (by rw [a3]; omega), a2, ← entries_getElem? _ i hi]
    apply List.getElem?_append_left
    rw [b2, List.length_map]
    omega
  · rw [← entries_getElem? _ _ (by rw [a3]; omega), a2, b2, b3]
    rw [List.getElem?_append_right (by simp)]
    simp

/-- Witness of C5: capacity 1, a third insertion after two (the capacity
doubles twice). -/
theorem ducdir_add_ent_growth_witness :
    0 < 1 ∧ (ducdir_new true ctx_empty 1).1 = some (ducdir.fresh 1) ∧
    (add_one 256 true ctx_empty (add_all 256 ctx_empty (ducdir.fresh 1)
        [⟨bytes "a", 5, 0, 1, 2⟩, ⟨bytes "b", 0, 0, 1, 3⟩]) ⟨bytes "c", 7, 0, 1, 4⟩).2.2 = 0 ∧
    (add_one 256 true ctx_empty (add_all 256 ctx_empty (ducdir.fresh 1)
        [⟨bytes "a", 5, 0, 1, 2⟩, ⟨bytes "b", 0, 0, 1, 3⟩]) ⟨bytes "c", 7, 0, 1, 4⟩).1.entries
      = [(⟨bytes "a", 5, 0, 1, 2⟩ : add_args), ⟨bytes "b", 0, 0, 1, 3⟩].map (stored 256)
          ++ [stored 256 ⟨bytes "c", 7, 0, 1, 4⟩] :=
  ⟨by decide, rfl, by decide,
   (ducdir_add_ent_growth 256 1 (by decide) true ctx_empty (ducdir.fresh 1) rfl
      [⟨bytes "a", 5, 0, 1, 2⟩, ⟨bytes "b", 0, 0, 1, 3⟩] ⟨bytes "c", 7, 0, 1, 4⟩ true
      (by decide)).2.2.2.2.2⟩

/-! ### Lookup by name -/

theorem strcmp_eq_iff (name : List Nat) (e : ducent) :
    strcmp_eq name e.name = true ↔ e.name_str = cstr name := by
  simp only [strcmp_eq, ducent.name_str, beq_iff_eq]
  exact eq_comm

theorem find_from_none (name : List Nat) (l : List ducent) : ∀ k : Nat,
    find_from name l k = none ↔ ∀ e ∈ l, e.name_str ≠ cstr name := by
  induction l with
  | nil => intro k; simp [find_from]
  | cons x xs ih =>
    intro k
    by_cases hx : strcmp_eq name x.name = true
    · have := (strcmp_eq_iff name x).mp hx
      simp [find_from, hx, this]
    · have hx2 : ¬ x.name_str = cstr name := fun h => hx ((strcmp_eq_iff name x).mpr h)
      simp [find_from, hx, hx2, ih (k + 1)]

theorem find_from_some (name : List Nat) (l : List ducent) : ∀ k i : Nat,
    find_from name l k = some i ↔
      ∃ n e, i = k + n ∧ l[n]? = some e ∧ e.name_str = cstr name ∧
        ∀ j, j < n → ∀ e1, l[j]? = some e1 → e1.name_str ≠ cstr name := by
  induction l with
  | nil => intro k i; simp [find_from]
  | cons x xs ih =>
    intro k i
    by_cases hx : strcmp_eq name x.name = true
    · have hx1 := (strcmp_eq_iff name x).mp hx
      simp only [find_from, hx, if_true, Option.some.injEq]
      constructor
      · intro h
        exact ⟨0, x, by omega, by simp, hx1, by intro j hj; omega⟩
      · rintro ⟨n, e, hi, hn, _, hj⟩
        cases n with
        | zero => omega
        | succ n => exact absurd hx1 (hj 0 (by omega) x (by simp))
    · have hx2 : ¬ x.name_str = cstr name := fun h => hx ((strcmp_eq_iff name x).mpr h)
      simp only [find_from, hx, if_false, Bool.false_eq_true]
      rw [ih (k + 1) i]
      constructor
      · rintro ⟨n, e, hi, hn, he, hj⟩
        refine ⟨n + 1, e, by omega, by simpa using hn, he, ?_⟩
        intro j hj1 e1 he1
        cases j with
        | zero =>
          simp only [List.getElem?_cons_zero, Option.some.injEq] at he1
          rw [← he1]; exact hx2
        | succ j =>
          exact hj j (by omega) e1 (by simpa using he1)
      · rintro ⟨n, e, hi, hn, he, hj⟩
        cases n with
        | zero =>
          simp only [List.getElem?_cons_zero, Option.some.injEq] at hn
          rw [← hn] at he; exact absurd he hx2
        | succ n =>
          refine ⟨n, e, by omega, by simpa using hn, he, ?_⟩
          intro j hj1 e1 he1
          exact hj (j + 1) (by omega) e1 (by simpa using he1)

theorem cstr_length_lt (s : List Nat) (h : 0 ∈ s) : (cstr s).length < s.length := by
  induction s with
  | nil => simp at h
  | cons c cs ih =>
    by_cases hc : c = 0
    · subst hc
      simp [cstr]
    · have h1 : 0 ∈ cs := by
        rcases List.mem_cons.mp h with h | h
        · exact absurd h.symm hc
        · exact h
      have := ih h1
      unfold cstr at this ⊢
      rw [List.takeWhile_cons_of_pos (by simpa using hc)]
      simp only [List.length_cons]
      omega

/-- C4. In a directory whose stored name arrays each hold a NUL, so that every
`strcmp` of the scan reads a string that ends inside its array:
`duc_finddir(dir, name)` returns the entry at the smallest index below
`ent_count` whose stored name equals `name`, exactly when there is one; when no
entry has that name it returns NULL and sets the error to
`DUC_E_PATH_NOT_FOUND`; a directory holding an entry named `name` yields an
entry with that name. -/
theorem duc_finddir_first_match (d : duc) (dir : ducdir) (name : List Nat)
    (hterm : ∀ e ∈ dir.entries, 0 ∈ e.name) :
    (∀ e ∈ dir.entries, e.name_str.length < e.name.length) ∧
    (∀ i : Nat, (duc_finddir d dir name).1 = some i ↔
      (i < dir.ent_count ∧ ∃ e, dir.ent_list[i]? = some e ∧ e.name_str = cstr name ∧
        ∀ j, j < i → ∀ e1, dir.ent_list[j]? = some e1 → e1.name_str ≠ cstr name)) ∧
    ((duc_finddir d dir name).1 = none ↔ ∀ e ∈ dir.entries, e.name_str ≠ cstr name) ∧
    ((duc_finddir d dir name).1 = none →
      (duc_finddir d dir name).2 = { d with err := duc_errno.DUC_E_PATH_NOT_FOUND }) ∧
    ((duc_finddir d dir name).1 ≠ none → (duc_finddir d dir name).2 = d) ∧
    (∀ e ∈ dir.entries, e.name_str = cstr name →
      ∃ i e1, (duc_finddir d dir name).1 = some i ∧ dir.entries[i]? = some e1 ∧
        e1.name_str = cstr name) := by
  have hres : (duc_finddir d dir name).1 = find_from name dir.entries 0 := by
    unfold duc_finddir
    cases find_from name dir.entries 0 <;> rfl
  have hsome : ∀ i : Nat, find_from name dir.entries 0 = some i ↔
      (i < dir.ent_count ∧ ∃ e, dir.ent_list[i]? = some e ∧ e.name_str = cstr name ∧
        ∀ j, j < i → ∀ e1, dir.ent_list[j]? = some e1 → e1.name_str ≠ cstr name) := by
    intro i
    rw [find_from_some]
    constructor
    · rintro ⟨n, e, hi, hn, he, hj⟩
      have hin : i = n := by omega
      subst hin
      have hlt : i < dir.ent_count := by
        by_contra hc
        have : dir.entries[i]? = none := by
          unfold ducdir.entries
          exact List.getElem?_take_eq_none (by omega)
        rw [this] at hn
        simp at hn
      refine ⟨hlt, e, by rw [← entries_getElem? dir i hlt]; exact hn, he, ?_⟩
      intro j hj1 e1 he1
      exact hj j hj1 e1 (by rw [entries_getElem? dir j (by omega)]; exact he1)
    · rintro ⟨hlt, e, hn, he, hj⟩
      refine ⟨i, e, by omega, by rw [entries_getElem? dir i hlt]; exact hn, he, ?_⟩
      intro j hj1 e1 he1
      exact hj j hj1 e1 (by rw [← entries_getElem? dir j (by omega)]; exact he1)
  refine ⟨fun e he => cstr_length_lt e.name (hterm e he), ?_, ?_, ?_, ?_, ?_⟩
  · intro i
    rw [hres]
    exact hsome i
  · rw [hres]
    exact find_from_none name dir.entries 0
  · intro h
    rw [hres] at h
    simp [duc_finddir, h]
  · intro h
    rw [hres] at h
    unfold duc_finddir
    cases hf : find_from name dir.entries 0 with
    | none => exact absurd hf h
    | some i => rfl
  · intro e he hn
    cases hf : find_from name dir.entries 0 with
    | none => exact absurd hn ((find_from_none name dir.entries 0).mp hf e he)
    | some i =>
      obtain ⟨n, e1, hi, hn1, he1, _⟩ := (find_from_some name dir.entries 0 i).mp hf
      have hin : i = n := by omega
      subst hin
      exact ⟨i, e1, by rw [hres, hf], hn1, he1⟩

set_option maxRecDepth 100000 in
/-- Witness of C4: the name `x` is found at index 1 of `sample_dir`, the first
of the two entries with that name; the name `z` is not found.  The three name
arrays of `sample_dir` have 256 bytes and hold names of one byte. -/
theorem duc_finddir_first_match_witness :
    (∀ e ∈ sample_dir.entries, 0 ∈ e.name) ∧
    (duc_finddir ctx_empty sample_dir (bytes "x")).1 = some 1 ∧
    (1 < sample_dir.ent_count ∧ ∃ e, sample_dir.ent_list[1]? = some e ∧
      e.name_str = cstr (bytes "x") ∧
      ∀ j, j < 1 → ∀ e1, sample_dir.ent_list[j]? = some e1 → e1.name_str ≠ cstr (bytes "x")) ∧
    (duc_finddir ctx_empty sample_dir (bytes "z")).1 = none ∧
    (duc_finddir ctx_empty sample_dir (bytes "z")).2
      = { ctx_empty with err := duc_errno.DUC_E_PATH_NOT_FOUND } :=
  ⟨by decide, by decide,
   ((duc_finddir_first_match ctx_empty sample_dir (bytes "x") (by decide)).2.1 1).mp (by decide),
   by decide,
   (duc_finddir_first_match ctx_empty sample_dir (bytes "z") (by decide)).2.2.2.1 (by decide)⟩

/-! ### Sorting -/

theorem insert_le_sorted (cmp : ducent → ducent → Int) (h : three_way cmp) (x : ducent)
    (l : List ducent) (hl : l.Pairwise (fun a b => cmp a b ≤ 0)) :
    (insert_le cmp x l).Pairwise (fun a b => cmp a b ≤ 0) := by
  induction l with
  | nil => simp [insert_le]
  | cons y ys ih =>
    obtain ⟨hy, hys⟩ := List.pairwise_cons.mp hl
    unfold insert_le
    split
    · rename_i hxy
      refine List.pairwise_cons.mpr ⟨?_, hl⟩
      intro z hz
      rcases List.mem_cons.mp hz with rfl | hz
      · exact hxy
      · exact h.2 x y z hxy (hy z hz)
    · rename_i hxy
      have hyx : cmp y x ≤ 0 := by
        have := (h.1 y x).mpr (by omega)
        omega
      refine List.pairwise_cons.mpr ⟨?_, ih hys⟩
      intro z hz
      rcases List.mem_cons.mp ((insert_le_perm cmp x ys).mem_iff.mp hz) with rfl | hz
      · exact hyx
      · exact hy z hz

/-- The insertion sort that tests `cmp x y <= 0` sorts every list for every
three-way comparator. -/
theorem qsort_insert_le_sorts (cmp : ducent → ducent → Int) (h : three_way cmp)
    (l : List ducent) : (qsort_insert_le cmp l).Pairwise (fun a b => cmp a b ≤ 0) := by
  induction l with
  | nil => simp [qsort_insert_le]
  | cons x xs ih => exact insert_le_sorted cmp h x _ ih

theorem fn_comp_ent_not_three_way : ¬ three_way fn_comp_ent := by
  intro h
  have := (h.1 ⟨[], 2, 0, 0, 0⟩ ⟨[], 1, 0, 0, 0⟩).mpr (by decide)
  revert this
  decide

theorem cmp_size_desc_three_way : three_way cmp_size_desc := by
  refine ⟨?_, ?_⟩
  · intro a b
    unfold cmp_size_desc
    split_ifs <;> omega
  · intro a b c
    unfold cmp_size_desc
    split_ifs <;> omega

set_option maxRecDepth 100000 in
/-- The sort of musl with `fn_comp_ent` on the six orders of the sizes 1, 2, 3
and on two sizes: the entry that is last stays last, so four of the six
orders do not come out sorted. -/
theorem qsort_musl_fn_comp_ent_small :
    (qsort_musl_run fn_comp_ent (sized [1, 2])).map (List.map ducent.size) = some [2, 1] ∧
    (qsort_musl_run fn_comp_ent (sized [2, 1])).map (List.map ducent.size) = some [2, 1] ∧
    (qsort_musl_run fn_comp_ent (sized [1, 2, 3])).map (List.map ducent.size) = some [2, 1, 3] ∧
    (qsort_musl_run fn_comp_ent (sized [2, 1, 3])).map (List.map ducent.size) = some [2, 1, 3] ∧
    (qsort_musl_run fn_comp_ent (sized [1, 3, 2])).map (List.map ducent.size) = some [3, 1, 2] ∧
    (qsort_musl_run fn_comp_ent (sized [3, 1, 2])).map (List.map ducent.size) = some [3, 1, 2] ∧
    (qsort_musl_run fn_comp_ent (sized [2, 3, 1])).map (List.map ducent.size) = some [3, 2, 1] ∧
    (qsort_musl_run fn_comp_ent (sized [3, 2, 1])).map (List.map ducent.size) = some [3, 2, 1] := by
  decide

set_option maxRecDepth 100000 in
/-- The sort of musl with a three-way comparator by falling size on a list of
thirteen entries. -/
theorem qsort_musl_three_way_example :
    (qsort_musl_run cmp_size_desc (sized [1, 3, 2, 7, 5, 9, 0, 4, 4, 8, 11, 2, 3])).map
      (List.map ducent.size) = some [11, 9, 8, 7, 5, 4, 4, 3, 3, 2, 2, 1, 0] := by
  decide

set_option maxRecDepth 100000 in
/-- C3, the failing input.  `fn_comp_ent` is not a three-way comparator, and
with the library sort of musl `duc_opendirat` returns the record of (1, 100)
of `rising`, which holds the sizes 1, 2, 3 in this order, with the sizes
2, 1, 3: the largest entry last.  The sort runs to its end there, and the
same sort run on the same entries with a three-way comparator by falling size
gives 3, 2, 1. -/
theorem duc_opendirat_not_sorted :
    ¬ three_way fn_comp_ent ∧
    (ducdir_read 256 rising 1 100).1.map (fun dir => dir.entries.map ducent.size)
      = some [1, 2, 3] ∧
    (duc_opendirat 256 qsort_musl rising 1 100).1.map
      (fun dir => (dir.ent_count, dir.entries.map ducent.size)) = some (3, [2, 1, 3]) ∧
    (ducdir_read 256 rising 1 100).1.map
      (fun dir => (qsort_musl_run fn_comp_ent dir.entries).map (List.map ducent.size))
      = some (some [2, 1, 3]) ∧
    three_way cmp_size_desc ∧
    (ducdir_read 256 rising 1 100).1.map
      (fun dir => (qsort_musl_run cmp_size_desc dir.entries).map (List.map ducent.size))
      = some (some [3, 2, 1]) :=
  ⟨fn_comp_ent_not_three_way, by decide, by decide, by decide, cmp_size_desc_three_way,
   by decide⟩

theorem insert_le_fn_comp_ent (x : ducent) (l : List ducent)
    (hl : l.Pairwise (fun a b => b.size ≤ a.size)) :
    (insert_le fn_comp_ent x l).Pairwise (fun a b => b.size ≤ a.size) := by
  induction l with
  | nil => simp [insert_le]
  | cons y ys ih =>
    obtain ⟨hy, hys⟩ := List.pairwise_cons.mp hl
    unfold insert_le
    split
    · rename_i hxy
      have hxy1 : y.size ≤ x.size := by
        unfold fn_comp_ent at hxy
        split at hxy <;> omega
      refine List.pairwise_cons.mpr ⟨?_, hl⟩
      intro z hz
      rcases List.mem_cons.mp hz with rfl | hz
      · exact hxy1
      · exact le_trans (hy z hz) hxy1
    · rename_i hxy
      have hxy1 : x.size ≤ y.size := by
        unfold fn_comp_ent at hxy
        split at hxy
        · omega
        · exact absurd (le_refl (0 : Int)) hxy
      refine List.pairwise_cons.mpr ⟨?_, ih hys⟩
      intro z hz
      rcases List.mem_cons.mp ((insert_le_perm fn_comp_ent x ys).mem_iff.mp hz) with rfl | hz
      · exact hxy1
      · exact hy z hz

/-- With the insertion sort that tests `cmp x y <= 0` the entries returned by
`duc_opendirat` are in non-increasing order of size, for every store. -/
theorem duc_opendirat_sorted_insert_le (M : Nat) (d d1 : duc) (dev ino : Nat) (dir : ducdir)
    (h : duc_opendirat M qsort_insert_le d dev ino = (some dir, d1)) :
    dir.entries.Pairwise (fun a b => b.size ≤ a.size) := by
  obtain ⟨dir0, _, e1, _⟩ := opendirat_entries M qsort_insert_le qsort_insert_le_permutes
    d d1 dev ino dir h
  rw [e1]
  generalize dir0.entries = l
  induction l with
  | nil => simp [qsort_insert_le]
  | cons x xs ih => exact insert_le_fn_comp_ent x _ ih

/-! ### The anchor search -/

theorem skip_to_sep_spec (p : List Nat) : ∀ m : Nat,
    skip_to_sep p m ≤ m ∧ (1 ≤ m → 1 ≤ skip_to_sep p m) ∧
    (skip_to_sep p m ≤ 1 ∨ p.getD (skip_to_sep p m) 0 = 47) ∧
    ∀ j, skip_to_sep p m < j → j ≤ m → (1 < j ∧ p.getD j 0 ≠ 47) := by
  intro m
  induction m with
  | zero =>
    refine ⟨le_refl _, fun h => by omega, Or.inl (by simp [skip_to_sep]), ?_⟩
    intro j h1 h2
    simp only [skip_to_sep] at h1
    omega
  | succ m ih =>
    obtain ⟨i1, i2, i3, i4⟩ := ih
    by_cases hc : m + 1 > 1 ∧ p.getD (m + 1) 0 ≠ 47
    · have e : skip_to_sep p (m + 1) = skip_to_sep p m := by
        rw [skip_to_sep, if_pos hc]
      rw [e]
      refine ⟨by omega, fun _ => i2 (by omega), i3, ?_⟩
      intro j hj1 hj2
      by_cases hjm : j ≤ m
      · exact i4 j hj1 hjm
      · have : j = m + 1 := by omega
        subst this
        exact ⟨hc.1, hc.2⟩
    · have e : skip_to_sep p (m + 1) = m + 1 := by
        rw [skip_to_sep, if_neg hc]
      rw [e]
      refine ⟨le_refl _, fun _ => by omega, ?_, fun j h1 h2 => by omega⟩
      by_cases h1 : m + 1 > 1
      · right
        by_contra h2
        exact hc ⟨h1, h2⟩
      · left; omega

theorem tried_step (p : List Nat) (l j : Nat) (hl : 0 < l) :
    tried p l j ↔ (j = l ∨ tried p (skip_to_sep p (l - 1)) j) := by
  obtain ⟨s1, s2, s3, s4⟩ := skip_to_sep_spec p (l - 1)
  constructor
  · rintro ⟨hj0, hj⟩
    rcases hj with rfl | ⟨hjl, hj⟩
    · left; rfl
    · right
      have hle : j ≤ skip_to_sep p (l - 1) := by
        by_contra hc
        obtain ⟨h1, h2⟩ := s4 j (by omega) (by omega)
        rcases hj with hj | hj
        · omega
        · exact h2 hj
      refine ⟨hj0, ?_⟩
      by_cases he : j = skip_to_sep p (l - 1)
      · left; exact he
      · right; exact ⟨by omega, hj⟩
  · rintro (rfl | ⟨hj0, hj⟩)
    · exact ⟨hl, Or.inl rfl⟩
    · refine ⟨hj0, Or.inr ⟨by rcases hj with rfl | ⟨h, _⟩ <;> omega, ?_⟩⟩
      rcases hj with rfl | ⟨_, hj⟩
      · rcases s3 with h | h
        · left; omega
        · right; exact h
      · exact hj

/-- The loop ends within `l + 1` rounds, at the greatest tried length whose
key is in the store, or at 0 when no tried length has its key in the store;
the lengths are tried in decreasing order, down to the one selected. -/
theorem find_anchor_spec (db : Store) (p : List Nat) : ∀ (fuel l : Nat), l < fuel →
    ∃ r v, find_anchor db p fuel l = some (r, v) ∧
      ((r = 0 ∧ v = none ∧ ∀ j, tried p l j → db (p.take j) = none) ∨
       (tried p l r ∧ v = db (p.take r) ∧ v ≠ none ∧
         ∀ j, tried p l j → r < j → db (p.take j) = none)) ∧
      (anchor_tries db p fuel l).Pairwise (fun a b => b < a) ∧
      (∀ j, j ∈ anchor_tries db p fuel l ↔ (tried p l j ∧ r ≤ j)) := by
  intro fuel
  induction fuel with
  | zero => intro l h; omega
  | succ fuel ih =>
    intro l hl
    by_cases h0 : l > 0
    · cases hdb : db (p.take l) with
      | some val =>
        refine ⟨l, some val, by simp [find_anchor, h0, db_get, hdb], Or.inr ⟨⟨h0, Or.inl rfl⟩,
          hdb.symm, by simp, ?_⟩, by simp [anchor_tries, h0, db_get, hdb], ?_⟩
        · rintro j ⟨_, hj⟩ hlt
          rcases hj with rfl | ⟨h, _⟩ <;> omega
        · intro j
          simp only [anchor_tries, h0, if_true, db_get, hdb, List.mem_singleton]
          constructor
          · rintro rfl; exact ⟨⟨h0, Or.inl rfl⟩, le_refl _⟩
          · rintro ⟨⟨_, hj⟩, hle⟩
            rcases hj with rfl | ⟨h, _⟩
            · rfl
            · omega
      | none =>
        obtain ⟨s1, _, _, _⟩ := skip_to_sep_spec p (l - 1)
        obtain ⟨r, v, hr, hcase, hpw, hmem⟩ := ih (skip_to_sep p (l - 1)) (by omega)
        have hrl : r < l := by
          rcases hcase with ⟨h, _⟩ | ⟨⟨_, h⟩, _⟩
          · omega
          · rcases h with h | ⟨h, _⟩ <;> omega
        refine ⟨r, v, by simp [find_anchor, h0, db_get, hdb, hr], ?_, ?_, ?_⟩
        · rcases hcase with ⟨hr0, hv, hall⟩ | ⟨ht, hv, hvn, hall⟩
          · left
            refine ⟨hr0, hv, ?_⟩
            intro j hj
            rcases (tried_step p l j h0).mp hj with rfl | hj
            · exact hdb
            · exact hall j hj
          · right
            refine ⟨(tried_step p l r h0).mpr (Or.inr ht), hv, hvn, ?_⟩
            intro j hj hlt
            rcases (tried_step p l j h0).mp hj with rfl | hj
            · exact hdb
            · exact hall j hj hlt
        · simp only [anchor_tries, h0, if_true, db_get, hdb]
          refine List.pairwise_cons.mpr ⟨?_, hpw⟩
          intro j hj
          obtain ⟨⟨_, hj1⟩, _⟩ := (hmem j).mp hj
          rcases hj1 with rfl | ⟨h, _⟩ <;> omega
        · intro j
          simp only [anchor_tries, h0, if_true, db_get, hdb, List.mem_cons]
          rw [hmem j, tried_step p l j h0]
          constructor
          · rintro (rfl | ⟨h1, h2⟩)
            · exact ⟨Or.inl rfl, by omega⟩
            · exact ⟨Or.inr h1, h2⟩
          · rintro ⟨rfl | h1, h2⟩
            · left; rfl
            · right; exact ⟨h1, h2⟩
    · have hl0 : l = 0 := by omega
      subst hl0
      refine ⟨0, none, by simp [find_anchor], Or.inl ⟨rfl, rfl, ?_⟩, by simp [anchor_tries], ?_⟩
      · rintro j ⟨hj0, hj⟩
        rcases hj with rfl | ⟨h, _⟩ <;> omega
      · intro j
        simp only [anchor_tries, lt_self_iff_false, if_false, List.not_mem_nil, false_iff]
        rintro ⟨⟨hj0, hj⟩, _⟩
        rcases hj with rfl | ⟨h, _⟩ <;> omega

theorem strlen_of_no_zero (p : List Nat) (hz : ∀ c ∈ p, c ≠ 0) : strlen p = p.length := by
  unfold strlen
  rw [cstr_of_no_zero p hz]

theorem tried_iff_cand (p : List Nat) (hne : p ≠ []) (j : Nat) :
    tried p p.length j ↔ (cand_len p j ∧ 0 < j ∧ j ≤ p.length) := by
  have hlen : 0 < p.length := List.length_pos.mpr hne
  unfold tried cand_len
  constructor
  · rintro ⟨hj0, hj⟩
    rcases hj with rfl | ⟨hjl, rfl | hj⟩
    · exact ⟨Or.inl rfl, hj0, le_refl _⟩
    · exact ⟨Or.inr (Or.inr rfl), hj0, by omega⟩
    · by_cases h1 : j = 1
      · exact ⟨Or.inr (Or.inr h1), hj0, by omega⟩
      · exact ⟨Or.inr (Or.inl ⟨by omega, hjl, hj⟩), hj0, by omega⟩
  · rintro ⟨hc, hj0, hjl⟩
    refine ⟨hj0, ?_⟩
    rcases hc with rfl | ⟨h1, h2, h3⟩ | rfl
    · left; rfl
    · right; exact ⟨h2, Or.inr h3⟩
    · by_cases h : 1 = p.length
      · left; exact h
      · right; exact ⟨by omega, Or.inl rfl⟩

theorem find_anchor_fuel (db : Store) (p : List Nat) : ∀ (fuel fuel1 l : Nat),
    l < fuel → l < fuel1 → find_anchor db p fuel l = find_anchor db p fuel1 l := by
  intro fuel
  induction fuel with
  | zero => intro fuel1 l h; omega
  | succ fuel ih =>
    intro fuel1 l h h1
    cases fuel1 with
    | zero => omega
    | succ fuel1 =>
      by_cases h0 : l > 0
      · obtain ⟨s1, _, _, _⟩ := skip_to_sep_spec p (l - 1)
        simp only [find_anchor, h0, if_true]
        cases db_get db (p.take l) with
        | some val => rfl
        | none => exact ih fuel1 _ (by omega) (by omega)
      · simp [find_anchor, h0]

theorem cand_len_bounds (p : List Nat) (hne : p ≠ []) (j : Nat) (h : cand_len p j) :
    0 < j ∧ j ≤ p.length := by
  have hlen : 0 < p.length := List.length_pos.mpr hne
  rcases h with rfl | ⟨h1, h2, _⟩ | rfl <;> omega

/-- C10. Anchor search: for a non-empty canonical path `p` the loop of
`duc_opendir` terminates, whatever number of rounds beyond `strlen p` is
allowed; it stops at the greatest candidate length whose key `p[0 .. l)` is in
the store, with the value stored there, and at `l = 0` exactly when no
candidate key is in the store; the candidate lengths are tried in strictly
decreasing order down to the one selected.  The candidates are `p`, every `p[0 .. l)` with
`1 < l < |p|` and `p[l] = '/'`, and the root `/` (length 1). -/
theorem duc_opendir_anchor_search (db : Store) (p : List Nat) (hne : p ≠ [])
    (hz : ∀ c ∈ p, c ≠ 0) (hroot : p.head? = some 47) :
    ∃ l v,
      (∀ fuel, strlen p < fuel → find_anchor db p fuel (strlen p) = some (l, v)) ∧
      (l = 0 ↔ ∀ j, cand_len p j → db (p.take j) = none) ∧
      (l = 0 → v = none) ∧
      (0 < l → cand_len p l ∧ v = db (p.take l) ∧ v ≠ none ∧
        ∀ j, cand_len p j → db (p.take j) ≠ none → j ≤ l) ∧
      (anchor_tries db p (strlen p + 1) (strlen p)).Pairwise (fun a b => b < a) ∧
      (∀ j, j ∈ anchor_tries db p (strlen p + 1) (strlen p) ↔ (cand_len p j ∧ l ≤ j)) ∧
      p.take 1 = bytes "/" ∧ p.take p.length = p := by
  have hs : strlen p = p.length := strlen_of_no_zero p hz
  obtain ⟨r, v, hr, hcase, hpw, hmem⟩ := find_anchor_spec db p (strlen p + 1) (strlen p)
    (Nat.lt_succ_self _)
  have htc : ∀ j, tried p (strlen p) j ↔ cand_len p j := by
    intro j
    rw [hs, tried_iff_cand p hne j]
    exact ⟨fun h => h.1, fun h => ⟨h, cand_len_bounds p hne j h⟩⟩
  have hlen : 0 < p.length := List.length_pos.mpr hne
  refine ⟨r, v, ?_, ?_, ?_, ?_, hpw, ?_, ?_, List.take_length p⟩
  · intro fuel hf
    rw [find_anchor_fuel db p fuel (strlen p + 1) (strlen p) hf (Nat.lt_succ_self _)]
    exact hr
  · rcases hcase with ⟨h0, _, hall⟩ | ⟨ht, hv, hvn, _⟩
    · exact ⟨fun _ j hj => hall j ((htc j).mpr hj), fun _ => h0⟩
    · constructor
      · intro h0
        exact absurd h0 (by have := ht.1; omega)
      · intro hall
        exact absurd (hall r ((htc r).mp ht)) (by rw [← hv]; exact hvn)
  · rcases hcase with ⟨_, hv, _⟩ | ⟨ht, _, _, _⟩
    · exact fun _ => hv
    · intro h0
      exact absurd h0 (by have := ht.1; omega)
  · intro hpos
    rcases hcase with ⟨h0, _, _⟩ | ⟨ht, hv, hvn, hall⟩
    · omega
    · refine ⟨(htc r).mp ht, hv, hvn, ?_⟩
      intro j hj hdb
      by_contra hc
      exact hdb (hall j ((htc j).mpr hj) (by omega))
  · intro j
    rw [hmem j, htc j]
  · cases p with
    | nil => exact absurd rfl hne
    | cons a as =>
      simp only [List.head?_cons, Option.some.injEq] at hroot
      subst hroot
      rfl

/-- Witness of C10: the path `/data/sub/file.txt` in the scenario store; the
lengths 18, 9 and 5 are tried and the anchor `/data` is selected. -/
theorem duc_opendir_anchor_search_witness :
    bytes "/data/sub/file.txt" ≠ [] ∧ (∀ c ∈ bytes "/data/sub/file.txt", c ≠ 0) ∧
    (bytes "/data/sub/file.txt").head? = some 47 ∧
    find_anchor scenario.db (bytes "/data/sub/file.txt") 19 18 = some (5, some (bytes "1 100")) ∧
    anchor_tries scenario.db (bytes "/data/sub/file.txt") 19 18 = [18, 9, 5] ∧
    ∃ l v,
      (∀ fuel, strlen (bytes "/data/sub/file.txt") < fuel →
        find_anchor scenario.db (bytes "/data/sub/file.txt") fuel
          (strlen (bytes "/data/sub/file.txt")) = some (l, v)) ∧
      (l = 0 ↔ ∀ j, cand_len (bytes "/data/sub/file.txt") j →
        scenario.db ((bytes "/data/sub/file.txt").take j) = none) ∧
      (l = 0 → v = none) ∧
      (0 < l → cand_len (bytes "/data/sub/file.txt") l ∧
        v = scenario.db ((bytes "/data/sub/file.txt").take l) ∧ v ≠ none ∧
        ∀ j, cand_len (bytes "/data/sub/file.txt") j →
          scenario.db ((bytes "/data/sub/file.txt").take j) ≠ none → j ≤ l) ∧
      (anchor_tries scenario.db (bytes "/data/sub/file.txt")
          (strlen (bytes "/data/sub/file.txt") + 1)
          (strlen (bytes "/data/sub/file.txt"))).Pairwise (fun a b => b < a) ∧
      (∀ j, j ∈ anchor_tries scenario.db (bytes "/data/sub/file.txt")
          (strlen (bytes "/data/sub/file.txt") + 1) (strlen (bytes "/data/sub/file.txt"))
        ↔ (cand_len (bytes "/data/sub/file.txt") j ∧ l ≤ j)) ∧
      (bytes "/data/sub/file.txt").take 1 = bytes "/" ∧
      (bytes "/data/sub/file.txt").take (bytes "/data/sub/file.txt").length
        = bytes "/data/sub/file.txt" :=
  ⟨by decide, by decide, by decide, by decide, by decide,
   duc_opendir_anchor_search scenario.db (bytes "/data/sub/file.txt") (by decide) (by decide)
     (by decide)⟩

/-- When no candidate key is in the store the loop ends with `l = 0`. -/
theorem find_anchor_none (db : Store) (p : List Nat) (hne : p ≠ []) (hz : ∀ c ∈ p, c ≠ 0)
    (hnone : ∀ j, cand_len p j → db (p.take j) = none) :
    find_anchor db p (strlen p + 1) (strlen p) = some (0, none) := by
  have hs : strlen p = p.length := strlen_of_no_zero p hz
  obtain ⟨r, v, hr, hcase, _, _⟩ := find_anchor_spec db p (strlen p + 1) (strlen p)
    (Nat.lt_succ_self _)
  rcases hcase with ⟨h0, hv, _⟩ | ⟨ht, hv, hvn, _⟩
  · rw [hr, h0, hv]
  · rw [hs] at ht
    have hc := ((tried_iff_cand p hne r).mp ht).1
    exact absurd (hnone r hc) (by rw [← hv]; exact hvn)

/-- C9. When no candidate key of the canonical path `p` is in the store,
`duc_opendir` returns NULL with the error `DUC_E_PATH_NOT_FOUND`; so it does
for every store that has the same values at the keys `p[0 .. j)`, whatever
records the two stores hold. -/
theorem duc_opendir_no_anchor (M : Nat) (q : Qsort) (d : duc) (p : List Nat) (dev0 ino0 : Nat)
    (hne : p ≠ []) (hz : ∀ c ∈ p, c ≠ 0)
    (hnone : ∀ j, cand_len p j → d.db (p.take j) = none) :
    duc_opendir M q d (some p) dev0 ino0
      = (none, { d with err := duc_errno.DUC_E_PATH_NOT_FOUND }) ∧
    ∀ d1 : duc, (∀ j, d1.db (p.take j) = d.db (p.take j)) →
      duc_opendir M q d1 (some p) dev0 ino0
        = (none, { d1 with err := duc_errno.DUC_E_PATH_NOT_FOUND }) := by
  have key : ∀ d2 : duc, (∀ j, cand_len p j → d2.db (p.take j) = none) →
      duc_opendir M q d2 (some p) dev0 ino0
        = (none, { d2 with err := duc_errno.DUC_E_PATH_NOT_FOUND }) := by
    intro d2 h2
    simp only [duc_opendir, find_anchor_none d2.db p hne hz h2]
    simp
  refine ⟨key d hnone, ?_⟩
  intro d1 h1
  exact key d1 (fun j hj => by rw [h1 j]; exact hnone j hj)

/-- Witness of C9: the path `/other/dir` in the scenario store. -/
theorem duc_opendir_no_anchor_witness :
    bytes "/other/dir" ≠ [] ∧ (∀ c ∈ bytes "/other/dir", c ≠ 0) ∧
    (∀ j, cand_len (bytes "/other/dir") j → scenario.db ((bytes "/other/dir").take j) = none) ∧
    duc_opendir 256 qsort_insert_le scenario (some (bytes "/other/dir")) 0 0
      = (none, { scenario with err := duc_errno.DUC_E_PATH_NOT_FOUND }) :=
  have h : ∀ j, cand_len (bytes "/other/dir") j →
      scenario.db ((bytes "/other/dir").take j) = none := by
    intro j hj
    have hb := cand_len_bounds (bytes "/other/dir") (by decide) j hj
    have hlen : (bytes "/other/dir").length = 10 := by decide
    rw [hlen] at hb
    have : ∀ k, k < 11 → scenario.db ((bytes "/other/dir").take k) = none := by decide
    exact this j (by omega)
  ⟨by decide, by decide, h,
   (duc_opendir_no_anchor 256 qsort_insert_le scenario (bytes "/other/dir") 0 0 (by decide)
     (by decide) h).1⟩

/-! ### Descent -/

theorem descend_none (M : Nat) (q : Qsort) (d : duc) (names : List (List Nat)) :
    descend M q d none names = (none, d) := by
  cases names <;> rfl

theorem descend_eq_foldl (M : Nat) (q : Qsort) (names : List (List Nat)) :
    ∀ (d : duc) (dir : Option ducdir),
      descend M q d dir names = names.foldl (descent_step M q) (dir, d) := by
  induction names with
  | nil => intro d dir; cases dir <;> rfl
  | cons n ns ih =>
    intro d dir
    cases dir with
    | none =>
      rw [descend_none]
      have : ∀ l : List (List Nat), l.foldl (descent_step M q) (none, d) = (none, d) := by
        intro l
        induction l with
        | nil => rfl
        | cons x xs ihx => simpa [List.foldl, descent_step] using ihx
      rw [this]
    | some dir =>
      simp only [List.foldl_cons]
      cases hfd : duc_finddir d dir n with
      | mk r d1 =>
        cases r with
        | none =>
          simp only [descend, hfd, descent_step]
          exact (descend_none M q d1 ns).symm.trans (ih d1 none)
        | some i =>
          simp only [descend, hfd, descent_step]
          exact ih _ _

/-- For a remainder shorter than 256 bytes `duc_opendir` is the descent of the
specification: the anchor identity is opened and the components of the
remainder are looked up and opened one after the other. -/
theorem duc_opendir_descent_short (M : Nat) (q : Qsort) (d : duc) (p : List Nat)
    (dev0 ino0 l : Nat) (v : List Nat) (hz : ∀ c ∈ p, c ≠ 0)
    (hf : find_anchor d.db p (strlen p + 1) (strlen p) = some (l, some v)) (hl : 0 < l)
    (hshort : p.length - l < 256) :
    duc_opendir M q d (some p) dev0 ino0
      = descent_spec M q d (sscanf_jd_jd v dev0 ino0).1 (sscanf_jd_jd v dev0 ino0).2
          (components (p.drop l)) := by
  have hl0 : l ≠ 0 := by omega
  have hrest : strtok_all (strncpy (p.drop l) 256) = components (p.drop l) := by
    unfold strtok_all components
    rw [cstr_strncpy, cstr_of_no_zero _ (fun c hc => hz c (List.mem_of_mem_drop hc))]
    rw [List.take_of_length_le (by simp; omega)]
  simp only [duc_opendir, hf, hl0, if_false, hrest, descent_spec]
  cases hop : duc_opendirat M q d (sscanf_jd_jd v dev0 ino0).1 (sscanf_jd_jd v dev0 ino0).2 with
  | mk r d1 =>
    cases r with
    | none =>
      have hd1 : d1 = { d1 with err := duc_errno.DUC_E_PATH_NOT_FOUND } := by
        unfold duc_opendirat at hop
        cases hrd : ducdir_read M d (sscanf_jd_jd v dev0 ino0).1 (sscanf_jd_jd v dev0 ino0).2 with
        | mk r2 d2 =>
          cases r2 with
          | some dir2 => simp [hrd] at hop
          | none =>
            simp only [hrd, Prod.mk.injEq, true_and] at hop
            subst hop
            cases hv : d.db (record_key (sscanf_jd_jd v dev0 ino0).1 (sscanf_jd_jd v dev0 ino0).2)
              with
            | none =>
              rw [read_of_get_none M d _ _ hv] at hrd
              simp only [Prod.mk.injEq, true_and] at hrd
              rw [← hrd]
            | some val =>
              rw [read_of_get M d _ _ val hv] at hrd
              simp at hrd
      simp only []
      rw [← hd1]
      have : ∀ l : List (List Nat), l.foldl (descent_step M q) (none, d1) = (none, d1) := by
        intro l
        induction l with
        | nil => rfl
        | cons x xs ihx => simpa [List.foldl, descent_step] using ihx
      rw [this]
    | some dir =>
      simp only []
      exact descend_eq_foldl M q _ d1 (some dir)

set_option maxRecDepth 100000 in
/-- C6, the failing input.  In the store `deep` the anchor search on
`/aaa...a/b` (255 times `a`) selects `/` with the identity (1, 1) and the
remainder has the components `aaa...a` and `b`; the descent of the
specification ends in the record of (1, 3), the directory `b`, while
`duc_opendir`, which keeps 256 bytes of the remainder, returns the record of
(1, 2), the directory `aaa...a`. -/
theorem duc_opendir_long_remainder :
    find_anchor deep.db path_long_b (strlen path_long_b + 1) (strlen path_long_b)
      = some (1, some (bytes "1 1")) ∧
    sscanf_jd_jd (bytes "1 1") 0 0 = (1, 1) ∧
    components (path_long_b.drop 1) = [long_name, bytes "b"] ∧
    (descent_spec 256 qsort_insert_le deep 1 1 (components (path_long_b.drop 1))).1
      = (duc_opendirat 256 qsort_insert_le deep 1 3).1 ∧
    (duc_opendir 256 qsort_insert_le deep (some path_long_b) 0 0).1
      = (duc_opendirat 256 qsort_insert_le deep 1 2).1 ∧
    (duc_opendir 256 qsort_insert_le deep (some path_long_b) 0 0).1
      ≠ (descent_spec 256 qsort_insert_le deep 1 1 (components (path_long_b.drop 1))).1 := by
  refine ⟨by decide, by decide, by decide, by decide, by decide, by decide⟩

set_option maxRecDepth 100000 in
/-- C8, the failing input.  In the store `deep` the remainder of
`/aaa...a/missing` (255 times `a`) has the components `aaa...a` and `missing`,
and the directory open after the first, the record of (1, 2), has no entry
named `missing`; `duc_opendir` returns that directory, not NULL, and the error
is not `DUC_E_PATH_NOT_FOUND`. -/
theorem duc_opendir_missing_returns_parent :
    find_anchor deep.db path_long_missing (strlen path_long_missing + 1)
        (strlen path_long_missing) = some (1, some (bytes "1 1")) ∧
    components (path_long_missing.drop 1) = [long_name, bytes "missing"] ∧
    (duc_opendirat 256 qsort_insert_le deep 1 2).1.map
        (fun dir => (duc_finddir deep dir (bytes "missing")).1) = some none ∧
    (duc_opendir 256 qsort_insert_le deep (some path_long_missing) 0 0).1
      = (duc_opendirat 256 qsort_insert_le deep 1 2).1 ∧
    (duc_opendir 256 qsort_insert_le deep (some path_long_missing) 0 0).1 ≠ none ∧
    (duc_opendir 256 qsort_insert_le deep (some path_long_missing) 0 0).2.err
      ≠ duc_errno.DUC_E_PATH_NOT_FOUND := by
  refine ⟨by decide, by decide, by decide, by decide, by decide, by decide⟩

/-- A library sort that rearranges its input leaves a directory of at most one
entry as `ducdir_read` returned it. -/
theorem opendirat_small (M : Nat) (q : Qsort) (hq : q.permutes) (d : duc) (dev ino : Nat)
    (h : ((ducdir_read M d dev ino).1.map ducdir.ent_count).getD 0 ≤ 1) :
    duc_opendirat M q d dev ino = ducdir_read M d dev ino := by
  unfold duc_opendirat
  cases hr : ducdir_read M d dev ino with
  | mk r d1 =>
    cases r with
    | none => rfl
    | some dir =>
      rw [hr] at h
      simp only [Option.map_some', Option.getD_some] at h
      have hperm := hq fn_comp_ent (dir.ent_list.take dir.ent_count)
      have hlen : (dir.ent_list.take dir.ent_count).length ≤ 1 := by
        simp only [List.length_take]
        omega
      have hq1 : q fn_comp_ent (dir.ent_list.take dir.ent_count)
          = dir.ent_list.take dir.ent_count := by
        generalize dir.ent_list.take dir.ent_count = l at hperm hlen
        match l, hlen with
        | [], _ => exact List.perm_nil.mp hperm
        | [a], _ => exact List.perm_singleton.mp hperm
        | _ :: _ :: _, h2 => simp at h2
      simp only [hq1, List.take_append_drop]

/-- C7, counterexample.  In the scenario store `duc_opendir` on
`/data/sub/file.txt` returns no directory whose entries are those decoded from
the record of (2, 200): it returns NULL, while that record decodes to a
directory. -/
theorem duc_opendir_scenario_file_counterexample :
    ¬ ∃ dir : ducdir,
      (duc_opendir 256 qsort_insert_le scenario (some (bytes "/data/sub/file.txt")) 0 0).1
        = some dir ∧
      (ducdir_read 256 scenario 2 200).1.map ducdir.entries = some dir.entries := by
  rintro ⟨dir, h, _⟩
  have hn : (duc_opendir 256 qsort_insert_le scenario (some (bytes "/data/sub/file.txt")) 0 0).1
      = none := by decide
  rw [hn] at h
  cases h

set_option maxRecDepth 100000 in
/-- C7, amended.  In the scenario store, for every library sort that
rearranges its input: `duc_opendir` on `/data/sub` returns the decoded content
of the record of (2, 200), which holds the one entry `file.txt` of size 42; on
`/data/sub/file.txt` it looks `file.txt` up as well and opens the identity of
that entry, (2, 201), which has no record: it returns NULL with the error
`DUC_E_PATH_NOT_FOUND`. -/
theorem duc_opendir_scenario (q : Qsort) (hq : q.permutes) (dev0 ino0 : Nat) :
    duc_opendir 256 q scenario (some (bytes "/data/sub")) dev0 ino0
      = ducdir_read 256 scenario 2 200 ∧
    (ducdir_read 256 scenario 2 200).1.map ducdir.entries
      = some [stored 256 ⟨bytes "file.txt", 42, 33188, 2, 201⟩] ∧
    duc_opendir 256 q scenario (some (bytes "/data/sub/file.txt")) dev0 ino0
      = (none, { scenario with err := duc_errno.DUC_E_PATH_NOT_FOUND }) := by
  have hs : sscanf_jd_jd (bytes "1 100") dev0 ino0 = (1, 100) := rfl
  have hA : duc_opendirat 256 q scenario 1 100
      = (some ((ducdir_read 256 scenario 1 100).1.getD (ducdir.fresh 0)), scenario) := by
    rw [opendirat_small 256 q hq scenario 1 100 (by decide)]
    rfl
  have hB : duc_opendirat 256 q scenario 2 200 = ducdir_read 256 scenario 2 200 :=
    opendirat_small 256 q hq scenario 2 200 (by decide)
  have hB2 : ducdir_read 256 scenario 2 200
      = (some ((ducdir_read 256 scenario 2 200).1.getD (ducdir.fresh 0)), scenario) := rfl
  have hC : duc_opendirat 256 q scenario 2 201
      = (none, { scenario with err := duc_errno.DUC_E_PATH_NOT_FOUND }) := by
    rw [opendirat_small 256 q hq scenario 2 201 (by decide)]
    rfl
  have hfA : duc_finddir scenario ((ducdir_read 256 scenario 1 100).1.getD (ducdir.fresh 0))
      (bytes "sub") = (some 0, scenario) := rfl
  have hfB : duc_finddir scenario ((ducdir_read 256 scenario 2 200).1.getD (ducdir.fresh 0))
      (bytes "file.txt") = (some 0, scenario) := rfl
  have heA : ((((ducdir_read 256 scenario 1 100).1.getD (ducdir.fresh 0)).ent_list.getD 0
        ducent.blank).dev,
      (((ducdir_read 256 scenario 1 100).1.getD (ducdir.fresh 0)).ent_list.getD 0
        ducent.blank).ino) = (2, 200) := by decide
  have heB : ((((ducdir_read 256 scenario 2 200).1.getD (ducdir.fresh 0)).ent_list.getD 0
        ducent.blank).dev,
      (((ducdir_read 256 scenario 2 200).1.getD (ducdir.fresh 0)).ent_list.getD 0
        ducent.blank).ino) = (2, 201) := by decide
  simp only [Prod.mk.injEq] at heA heB
  refine ⟨?_, by decide, ?_⟩
  · rw [duc_opendir_descent_short 256 q scenario (bytes "/data/sub") dev0 ino0 5 (bytes "1 100")
      (by decide) (by decide) (by decide) (by decide), hs]
    have hc : components ((bytes "/data/sub").drop 5) = [bytes "sub"] := by decide
    rw [hc]
    simp only [descent_spec, List.foldl, hA, descent_step, hfA, heA.1, heA.2, hB]
  · rw [duc_opendir_descent_short 256 q scenario (bytes "/data/sub/file.txt") dev0 ino0 5
      (bytes "1 100") (by decide) (by decide) (by decide) (by decide), hs]
    have hc : components ((bytes "/data/sub/file.txt").drop 5) = [bytes "sub", bytes "file.txt"] := by
      decide
    rw [hc]
    simp only [descent_spec, List.foldl, hA, descent_step, hfA, heA.1, heA.2, hB]
    rw [hB2]
    simp only [hfB, heB.1, heB.2, hC]

/-- Witness of C7, amended: the insertion sort that tests `cmp x y <= 0`. -/
theorem duc_opendir_scenario_witness :
    qsort_insert_le.permutes ∧
    duc_opendir 256 qsort_insert_le scenario (some (bytes "/data/sub")) 0 0
      = ducdir_read 256 scenario 2 200 ∧
    duc_opendir 256 qsort_insert_le scenario (some (bytes "/data/sub/file.txt")) 0 0
      = (none, { scenario with err := duc_errno.DUC_E_PATH_NOT_FOUND }) :=
  ⟨qsort_insert_le_permutes, (duc_opendir_scenario qsort_insert_le qsort_insert_le_permutes 0 0).1,
   (duc_opendir_scenario qsort_insert_le qsort_insert_le_permutes 0 0).2.2⟩

/-! ### The reading loop ends -/

theorem varint_dec_length (b : List Nat) :
    (varint_dec b).2.length ≤ b.length ∧ (b ≠ [] → (varint_dec b).2.length < b.length) := by
  induction b with
  | nil => simp [varint_dec]
  | cons x xs ih =>
    unfold varint_dec
    split
    · simp
    · simp only [List.length_cons, ne_eq, reduceCtorEq, not_false_eq_true, forall_const]
      omega

theorem get_varint_length (b : List Nat) : (buffer_get_varint b).2.length ≤ b.length :=
  (varint_dec_length b).1

theorem get_string_length (b : List Nat) (hb : b ≠ []) :
    (buffer_get_string b).2.length < b.length := by
  have h := (varint_dec_length b).2 hb
  simp only [buffer_get_string, buffer_get_varint, List.length_drop]
  omega

/-- Every round of the loop of `ducdir_read` reads at least one byte. -/
theorem read_ent_progress (M : Nat) (d : duc) (dir : ducdir) (b : List Nat) (hb : b ≠ []) :
    (read_ent M d dir b).2.2.length < b.length := by
  have h0 := get_string_length b hb
  have h1 := get_varint_length (buffer_get_string b).2
  have h2 := get_varint_length (buffer_get_varint (buffer_get_string b).2).2
  have h3 := get_varint_length (buffer_get_varint (buffer_get_varint (buffer_get_string b).2).2).2
  have h4 := get_varint_length
    (buffer_get_varint (buffer_get_varint (buffer_get_varint (buffer_get_string b).2).2).2).2
  simp only [read_ent]
  omega

/-- The loop of `ducdir_read` ends within as many rounds as the buffer has
bytes: more rounds give the same result. -/
theorem read_loop_fuel (M : Nat) : ∀ (fuel fuel1 : Nat) (d : duc) (dir : ducdir) (b : List Nat),
    b.length ≤ fuel → b.length ≤ fuel1 →
    read_loop M fuel d dir b = read_loop M fuel1 d dir b := by
  intro fuel
  induction fuel with
  | zero =>
    intro fuel1 d dir b h _
    have hb : b = [] := List.length_eq_zero.mp (by omega)
    subst hb
    cases fuel1 <;> simp [read_loop]
  | succ fuel ih =>
    intro fuel1 d dir b h h1
    by_cases hb : b = []
    · subst hb
      cases fuel1 <;> simp [read_loop]
    · have hp := read_ent_progress M d dir b hb
      cases fuel1 with
      | zero =>
        have : b = [] := List.length_eq_zero.mp (by omega)
        exact absurd this hb
      | succ fuel1 =>
        simp only [read_loop, hb, if_false]
        exact ih fuel1 _ _ _ (by omega) (by omega)

theorem foldl_descent_none (M : Nat) (q : Qsort) (d : duc) (l : List (List Nat)) :
    l.foldl (descent_step M q) (none, d) = (none, d) := by
  induction l with
  | nil => rfl
  | cons x xs ih => simpa [List.foldl, descent_step] using ih

/-- For a remainder shorter than 256 bytes, a component that is not the name
of an entry of the directory open at its step makes `duc_opendir` return NULL
with the error `DUC_E_PATH_NOT_FOUND`. -/
theorem duc_opendir_missing_short (M : Nat) (q : Qsort) (d d1 : duc) (p : List Nat)
    (dev0 ino0 l : Nat) (v : List Nat) (cs1 cs2 : List (List Nat)) (c : List Nat)
    (dir : ducdir) (hz : ∀ x ∈ p, x ≠ 0)
    (hf : find_anchor d.db p (strlen p + 1) (strlen p) = some (l, some v)) (hl : 0 < l)
    (hshort : p.length - l < 256) (hc : components (p.drop l) = cs1 ++ c :: cs2)
    (hopen : descent_spec M q d (sscanf_jd_jd v dev0 ino0).1 (sscanf_jd_jd v dev0 ino0).2 cs1
      = (some dir, d1))
    (hmiss : ∀ e ∈ dir.entries, e.name_str ≠ cstr c) :
    duc_opendir M q d (some p) dev0 ino0
      = (none, { d1 with err := duc_errno.DUC_E_PATH_NOT_FOUND }) := by
  rw [duc_opendir_descent_short M q d p dev0 ino0 l v hz hf hl hshort, hc]
  unfold descent_spec at hopen ⊢
  rw [List.foldl_append, hopen, List.foldl_cons]
  have hfd : duc_finddir d1 dir c = (none, { d1 with err := duc_errno.DUC_E_PATH_NOT_FOUND }) := by
    have := (find_from_none c dir.entries 0).mpr hmiss
    simp [duc_finddir, this]
  simp only [descent_step, hfd]
  exact foldl_descent_none M q _ cs2

/-! ### Byte strings that are not whole entries -/

theorem varint_enc_length_pos (n v : Nat) : 0 < (varint_enc n v).length :=
  List.length_pos.mpr (varint_enc_ne_nil n v)

/-- Every entry is written in five bytes or more. -/
theorem put_ent_length (e : ducent) : 5 ≤ (put_ent e).length := by
  have h1 := varint_enc_length_pos 9 (strlen e.name % 2 ^ 64)
  have h2 := varint_enc_length_pos 9 (off_to_u64 e.size % 2 ^ 64)
  have h3 := varint_enc_length_pos 9 (e.mode % 2 ^ 64)
  have h4 := varint_enc_length_pos 9 (e.dev % 2 ^ 64)
  have h5 := varint_enc_length_pos 9 (e.ino % 2 ^ 64)
  simp only [put_ent, buffer_put_string, buffer_put_varint, List.length_append]
  omega

theorem encode_entries_length (es : List ducent) :
    es = [] ∨ 5 ≤ (encode_entries es).length := by
  cases es with
  | nil => left; rfl
  | cons e es =>
    right
    have := put_ent_length e
    simp only [encode_entries, List.length_append]
    omega

theorem read_ent_count (M : Nat) (d : duc) (dir : ducdir) (b : List Nat) (h : dir.alloc_ok) :
    (read_ent M d dir b).1.alloc_ok ∧ (read_ent M d dir b).1.ent_count = dir.ent_count + 1 ∧
      (read_ent M d dir b).2.1 = d := by
  obtain ⟨a1, _, a3, _, _, a6⟩ := add_ent_true M d dir (buffer_get_string b).1
    (u64_to_off (buffer_get_varint (buffer_get_string b).2).1)
    ((buffer_get_varint (buffer_get_varint (buffer_get_string b).2).2).1 % 2 ^ 32)
    (buffer_get_varint (buffer_get_varint (buffer_get_varint (buffer_get_string b).2).2).2).1
    (buffer_get_varint (buffer_get_varint (buffer_get_varint
      (buffer_get_varint (buffer_get_string b).2).2).2).2).1 h
  refine ⟨a1, a3, ?_⟩
  simp only [read_ent]
  rw [a6]

theorem read_loop_count (M : Nat) : ∀ (fuel : Nat) (d : duc) (dir : ducdir) (b : List Nat),
    dir.alloc_ok →
    (read_loop M fuel d dir b).1.alloc_ok ∧ dir.ent_count ≤ (read_loop M fuel d dir b).1.ent_count ∧
      (0 < fuel → b ≠ [] → dir.ent_count < (read_loop M fuel d dir b).1.ent_count) ∧
      (b = [] → (read_loop M fuel d dir b).1 = dir) ∧
      (read_loop M fuel d dir b).2 = d := by
  intro fuel
  induction fuel with
  | zero =>
    intro d dir b h
    exact ⟨h, le_refl _, fun h0 => absurd h0 (by omega), fun _ => rfl, rfl⟩
  | succ fuel ih =>
    intro d dir b h
    by_cases hb : b = []
    · subst hb
      have e : read_loop M (fuel + 1) d dir [] = (dir, d) := by simp [read_loop]
      rw [e]
      exact ⟨h, le_refl _, fun _ hne => absurd rfl hne, fun _ => rfl, rfl⟩
    · obtain ⟨r1, r2, r3⟩ := read_ent_count M d dir b h
      obtain ⟨i1, i2, _, _, i5⟩ := ih (read_ent M d dir b).2.1 (read_ent M d dir b).1
        (read_ent M d dir b).2.2 r1
      have e : read_loop M (fuel + 1) d dir b
          = read_loop M fuel (read_ent M d dir b).2.1 (read_ent M d dir b).1
              (read_ent M d dir b).2.2 := by
        simp only [read_loop, hb, if_false]
      rw [e]
      refine ⟨i1, by omega, fun _ _ => by omega, fun he => absurd he hb, ?_⟩
      rw [i5, r3]

/-- A record that is present is always returned as a directory, with the
context unchanged; the directory has no entry for the empty value and at least
one entry otherwise. -/
theorem read_present (M : Nat) (d : duc) (dev ino : Nat) (val : List Nat)
    (h : d.db (record_key dev ino) = some val) :
    ∃ dir, ducdir_read M d dev ino = (some dir, d) ∧ dir.alloc_ok ∧
      (val = [] → dir.ent_count = 0 ∧ dir.entries = []) ∧ (val ≠ [] → 0 < dir.ent_count) := by
  obtain ⟨c1, _, c3, c4, c5⟩ := read_loop_count M val.length d
    { ent_list := List.replicate 8 ducent.blank, size_total := 0, ent_cur := 0,
      ent_count := 0, ent_max := 8 } val dir8_alloc_ok
  refine ⟨_, ?_, c1, ?_, ?_⟩
  · rw [read_of_get M d dev ino val h, c5]
  · intro hv
    rw [c4 hv]
    exact ⟨rfl, by simp [ducdir.entries]⟩
  · intro hv
    exact c3 (List.length_pos.mpr hv) hv

/-- C11, counterexample.  The bytes 5, `a`, `b` are not the bytes of a whole
number of entries, and `ducdir_read` on the store that holds them for (1, 100)
does not fail: it returns a directory with one entry, named `ab`, and leaves
the error as it was. -/
theorem ducdir_read_cut_counterexample :
    (∀ es : List ducent, encode_entries es ≠ [5, 97, 98]) ∧
    cut_record.db (record_key 1 100) = some [5, 97, 98] ∧
    (ducdir_read 256 cut_record 1 100).1.map
        (fun dir => (dir.ent_count, dir.entries.map ducent.name_str))
      = some (1, [bytes "ab"]) ∧
    (ducdir_read 256 cut_record 1 100).2.err = duc_errno.DUC_OK := by
  refine ⟨?_, by decide, by decide, by decide⟩
  intro es h
  rcases encode_entries_length es with rfl | h5
  · simp [encode_entries] at h
  · rw [h] at h5
    simp at h5

theorem read_ent_entries (M : Nat) (d : duc) (dir : ducdir) (b : List Nat) (h : dir.alloc_ok) :
    ∃ e, (read_ent M d dir b).1.entries = dir.entries ++ [e] := by
  obtain ⟨_, a2, _⟩ := add_ent_true M d dir (buffer_get_string b).1
    (u64_to_off (buffer_get_varint (buffer_get_string b).2).1)
    ((buffer_get_varint (buffer_get_varint (buffer_get_string b).2).2).1 % 2 ^ 32)
    (buffer_get_varint (buffer_get_varint (buffer_get_varint (buffer_get_string b).2).2).2).1
    (buffer_get_varint (buffer_get_varint (buffer_get_varint
      (buffer_get_varint (buffer_get_string b).2).2).2).2).1 h
  exact ⟨_, a2⟩

theorem read_loop_extends (M : Nat) : ∀ (fuel : Nat) (d : duc) (dir : ducdir) (b : List Nat),
    dir.alloc_ok →
    ∃ extra, (read_loop M fuel d dir b).1.entries = dir.entries ++ extra ∧
      (b = [] → extra = []) ∧ (0 < fuel → b ≠ [] → extra ≠ []) := by
  intro fuel
  induction fuel with
  | zero =>
    intro d dir b _
    exact ⟨[], by simp [read_loop], fun _ => rfl, fun h => absurd h (by omega)⟩
  | succ fuel ih =>
    intro d dir b h
    by_cases hb : b = []
    · subst hb
      exact ⟨[], by simp [read_loop], fun _ => rfl, fun _ hne => absurd rfl hne⟩
    · obtain ⟨e0, he0⟩ := read_ent_entries M d dir b h
      obtain ⟨r1, _, _⟩ := read_ent_count M d dir b h
      obtain ⟨extra, i1, _, _⟩ := ih (read_ent M d dir b).2.1 (read_ent M d dir b).1
        (read_ent M d dir b).2.2 r1
      have e : read_loop M (fuel + 1) d dir b
          = read_loop M fuel (read_ent M d dir b).2.1 (read_ent M d dir b).1
              (read_ent M d dir b).2.2 := by
        simp only [read_loop, hb, if_false]
      rw [e, i1, he0]
      exact ⟨e0 :: extra, by simp, fun he => absurd he hb, fun _ _ => by simp⟩

/-- Reading the bytes of well-formed entries followed by other bytes: the
entries are appended, and the loop goes on with the other bytes. -/
theorem read_loop_encode_then (M : Nat) (hM : M < 2 ^ 64) (es : List ducent) :
    ∀ (fuel : Nat) (d : duc) (dir : ducdir) (rest : List Nat), (∀ e ∈ es, e.wf M) →
      dir.alloc_ok → (encode_entries es ++ rest).length ≤ fuel →
      ∃ dir1, read_loop M fuel d dir (encode_entries es ++ rest)
          = read_loop M rest.length d dir1 rest ∧
        dir1.alloc_ok ∧ dir1.entries = dir.entries ++ es ∧
        dir1.ent_count = dir.ent_count + es.length := by
  induction es with
  | nil =>
    intro fuel d dir rest _ hd hf
    refine ⟨dir, ?_, hd, by simp, by simp⟩
    simp only [encode_entries, List.nil_append] at hf ⊢
    exact read_loop_fuel M fuel rest.length d dir rest hf (le_refl _)
  | cons e es ih =>
    intro fuel d dir rest hw hd hf
    have hlen : 0 < (put_ent e).length := List.length_pos.mpr (put_ent_ne_nil e)
    have hshape : encode_entries (e :: es) ++ rest
        = put_ent e ++ (encode_entries es ++ rest) := by
      simp [encode_entries]
    rw [hshape] at hf ⊢
    have hne : put_ent e ++ (encode_entries es ++ rest) ≠ [] := by
      simp [put_ent_ne_nil]
    cases fuel with
    | zero =>
      simp only [List.length_append] at hf
      omega
    | succ fuel =>
      obtain ⟨r1, r2, r3, r4⟩ := read_ent_put M hM d dir e (encode_entries es ++ rest)
        (hw e (by simp)) hd
      have hstep : read_loop M (fuel + 1) d dir (put_ent e ++ (encode_entries es ++ rest))
          = read_loop M fuel d (read_ent M d dir (put_ent e ++ (encode_entries es ++ rest))).1
              (encode_entries es ++ rest) := by
        rw [read_loop]
        simp only [hne, if_false, r4]
      obtain ⟨dir1, i1, i2, i3, i4⟩ := ih fuel d _ rest (fun x hx => hw x (by simp [hx])) r1
        (by simp only [List.length_append] at hf ⊢; omega)
      refine ⟨dir1, by rw [hstep, i1], i2, ?_, ?_⟩
      · rw [i3, r2]; simp
      · rw [i4, r3]; simp; omega

/-- C11, amended.  `ducdir_read` has no corruption failure: for every store
and every byte string stored under the record key, here the bytes of any
number of well-formed entries `es` followed by any bytes `cut`, it returns a
directory and leaves the context, error included, as it was; the directory
holds the entries `es` and after them, when `cut` is not empty, at least one
more entry made of the bytes of `cut`. -/
theorem ducdir_read_never_corruption (M : Nat) (hM : M < 2 ^ 64) (d : duc) (dev ino : Nat)
    (es : List ducent) (cut : List Nat) (hes : ∀ e ∈ es, e.wf M)
    (h : d.db (record_key dev ino) = some (encode_entries es ++ cut)) :
    ∃ dir extra, ducdir_read M d dev ino = (some dir, d) ∧
      dir.entries = es ++ extra ∧ dir.ent_count = es.length + extra.length ∧
      (cut = [] → extra = []) ∧ (cut ≠ [] → extra ≠ []) := by
  obtain ⟨dir1, s1, s2, s3, s4⟩ := read_loop_encode_then M hM es
    (encode_entries es ++ cut).length d
    { ent_list := List.replicate 8 ducent.blank, size_total := 0, ent_cur := 0,
      ent_count := 0, ent_max := 8 } cut hes dir8_alloc_ok (le_refl _)
  obtain ⟨extra, x1, x3, x4⟩ := read_loop_extends M cut.length d dir1 cut s2
  obtain ⟨c1, _, _, _, c5⟩ := read_loop_count M cut.length d dir1 cut s2
  have hent : (read_loop M cut.length d dir1 cut).1.entries = es ++ extra := by
    rw [x1, s3]
    simp [ducdir.entries]
  refine ⟨(read_loop M cut.length d dir1 cut).1, extra, ?_, hent, ?_, x3, ?_⟩
  · rw [read_of_get M d dev ino _ h, s1, c5]
  · have hl := congrArg List.length hent
    simp only [ducdir.entries, List.length_take, List.length_append] at hl
    have := c1.1
    have := c1.2.1
    omega
  · intro hc
    exact x4 (List.length_pos.mpr hc) hc

set_option maxRecDepth 100000 in
/-- Witness of C11, amended: the store `cut_after_one`, with name arrays of
256 bytes; the directory read has the entry `file.txt` and a second entry,
named `ab`. -/
theorem ducdir_read_never_corruption_witness :
    (256 : Nat) < 2 ^ 64 ∧
    (∀ e ∈ [stored 256 ⟨bytes "file.txt", 42, 33188, 2, 201⟩], e.wf 256) ∧
    cut_after_one.db (record_key 1 100)
      = some (encode_entries [stored 256 ⟨bytes "file.txt", 42, 33188, 2, 201⟩] ++ [5, 97, 98]) ∧
    (ducdir_read 256 cut_after_one 1 100).1.map (fun dir => dir.entries.map ducent.name_str)
      = some [bytes "file.txt", bytes "ab"] ∧
    ∃ dir extra, ducdir_read 256 cut_after_one 1 100 = (some dir, cut_after_one) ∧
      dir.entries = [stored 256 ⟨bytes "file.txt", 42, 33188, 2, 201⟩] ++ extra ∧
      dir.ent_count
        = [stored 256 ⟨bytes "file.txt", 42, 33188, 2, 201⟩].length + extra.length ∧
      (([5, 97, 98] : List Nat) = [] → extra = []) ∧
      (([5, 97, 98] : List Nat) ≠ [] → extra ≠ []) :=
  ⟨by decide, by decide, by decide, by decide,
   ducdir_read_never_corruption 256 (by decide) cut_after_one 1 100
     [stored 256 ⟨bytes "file.txt", 42, 33188, 2, 201⟩] [5, 97, 98] (by decide) (by decide)⟩

/-! ### Failure of growth -/

/-- What `ducdir_add_ent` does when the `realloc` request fails: the call
returns -1 exactly when growth is needed and refused; the error then is
`DUC_E_OUT_OF_MEMORY`, `ent_count`, `size_total` and the cursor are kept,
`ent_max` is doubled and `ent_list` is the null pointer. -/
theorem add_ent_failure (M : Nat) (ok : Bool) (d : duc) (dir : ducdir) (name : List Nat)
    (size : Int) (mode dev ino : Nat) :
    ((ducdir_add_ent M ok d dir name size mode dev ino).2.2 = -1 ↔
      (dir.ent_max ≤ dir.ent_count ∧ ok = false)) ∧
    ((ducdir_add_ent M ok d dir name size mode dev ino).2.2 = -1 →
      (ducdir_add_ent M ok d dir name size mode dev ino).2.1.err
          = duc_errno.DUC_E_OUT_OF_MEMORY ∧
      (ducdir_add_ent M ok d dir name size mode dev ino).1
        = { dir with ent_max := dir.ent_max * 2, ent_list := [] }) := by
  by_cases hg : dir.ent_count ≥ dir.ent_max
  · cases ok with
    | true => simp [ducdir_add_ent, hg]
    | false =>
      have hg1 : dir.ent_max ≤ dir.ent_count := hg
      simp [ducdir_add_ent, hg, hg1]
  · have hg1 : ¬ dir.ent_max ≤ dir.ent_count := hg
    simp [ducdir_add_ent, hg, hg1]

set_option maxRecDepth 100000 in
/-- C12, the failing input.  A second insertion into the full directory
`full_dir` of capacity 1, with `realloc` failing, returns -1 and sets
`DUC_E_OUT_OF_MEMORY`, and the directory is not what it was: `ent_max` is 2
where it was 1, and the entry list, which held the entry `a`, is lost. -/
theorem ducdir_add_ent_failure_changes_dir :
    full_dir.ent_max = 1 ∧ full_dir.ent_count = 1 ∧
    full_dir.entries = [stored 256 ⟨bytes "a", 5, 33188, 1, 2⟩] ∧
    (ducdir_add_ent 256 false ctx_empty full_dir (bytes "b") 7 33188 1 3).2.2 = -1 ∧
    (ducdir_add_ent 256 false ctx_empty full_dir (bytes "b") 7 33188 1 3).2.1.err
      = duc_errno.DUC_E_OUT_OF_MEMORY ∧
    (ducdir_add_ent 256 false ctx_empty full_dir (bytes "b") 7 33188 1 3).1.ent_count = 1 ∧
    (ducdir_add_ent 256 false ctx_empty full_dir (bytes "b") 7 33188 1 3).1.size_total
      = full_dir.size_total ∧
    (ducdir_add_ent 256 false ctx_empty full_dir (bytes "b") 7 33188 1 3).1.ent_max = 2 ∧
    (ducdir_add_ent 256 false ctx_empty full_dir (bytes "b") 7 33188 1 3).1.ent_list = [] ∧
    (ducdir_add_ent 256 false ctx_empty full_dir (bytes "b") 7 33188 1 3).1.entries = [] ∧
    (ducdir_add_ent 256 false ctx_empty full_dir (bytes "b") 7 33188 1 3).1 ≠ full_dir := by
  refine ⟨by decide, by decide, by decide, by decide, by decide, by decide, by decide,
    by decide, by decide, by decide, by decide⟩

/-! ### Stored names -/

/-- C13. Name truncation: with `M` the size of the name array, a successful
`ducdir_add_ent` on a directory whose slots are allocated writes at index
`ent_count` an entry whose stored name is the first `M` bytes of `name`, which
is `name` itself when `name` has fewer than `M` bytes (and when it has `M`);
size, mode, dev and ino are stored as given. -/
theorem ducdir_add_ent_stores (M : Nat) (ok : Bool) (d : duc) (dir : ducdir) (name : List Nat)
    (size : Int) (mode dev ino : Nat) (hname : ∀ c ∈ name, c ≠ 0) (hd : dir.alloc_ok)
    (hs : (ducdir_add_ent M ok d dir name size mode dev ino).2.2 = 0) :
    ∃ e, (ducdir_add_ent M ok d dir name size mode dev ino).1.ent_list[dir.ent_count]? = some e ∧
      e.name_str = name.take M ∧
      (name.length ≤ M → e.name_str = name) ∧
      (M < name.length → e.name_str.length = M) ∧
      e.name.length = M ∧
      e.size = size ∧ e.mode = mode ∧ e.dev = dev ∧ e.ino = ino := by
  have hsucc : ducdir_add_ent M ok d dir name size mode dev ino
      = ducdir_add_ent M true d dir name size mode dev ino :=
    add_one_success M ok d dir ⟨name, size, mode, dev, ino⟩ hs
  rw [hsucc]
  obtain ⟨_, a2, a3, _, _, _⟩ := add_ent_true M d dir name size mode dev ino hd
  have hidx : (ducdir_add_ent M true d dir name size mode dev ino).1.ent_list[dir.ent_count]?
      = some ⟨strncpy name M, size, mode, dev, ino⟩ := by
    have hlen : (dir.entries).length = dir.ent_count := by
      simp only [ducdir.entries, List.length_take]
      have := hd.1
      have := hd.2.1
      omega
    rw [← entries_getElem? _ _ (by rw [a3]; omega), a2]
    rw [List.getElem?_append_right (by rw [hlen])]
    simp [hlen]
  refine ⟨_, hidx, ?_, ?_, ?_, ?_, rfl, rfl, rfl, rfl⟩
  · simp only [ducent.name_str, cstr_strncpy, cstr_of_no_zero name hname]
  · intro hl
    simp only [ducent.name_str, cstr_strncpy, cstr_of_no_zero name hname]
    exact List.take_of_length_le hl
  · intro hl
    simp only [ducent.name_str, cstr_strncpy, cstr_of_no_zero name hname, List.length_take]
    omega
  · exact strncpy_length name M

/-- Witness of C13: the name `file.txt` stored in an array of 4 bytes and in
an array of 256 bytes. -/
theorem ducdir_add_ent_stores_witness :
    (∀ c ∈ bytes "file.txt", c ≠ 0) ∧ (ducdir.fresh 1).alloc_ok ∧
    (ducdir_add_ent 4 true ctx_empty (ducdir.fresh 1) (bytes "file.txt") 42 33188 2 201).2.2 = 0 ∧
    (∃ e, (ducdir_add_ent 4 true ctx_empty (ducdir.fresh 1) (bytes "file.txt") 42 33188 2
          201).1.ent_list[(ducdir.fresh 1).ent_count]? = some e ∧
      e.name_str = (bytes "file.txt").take 4 ∧
      ((bytes "file.txt").length ≤ 4 → e.name_str = bytes "file.txt") ∧
      (4 < (bytes "file.txt").length → e.name_str.length = 4) ∧
      e.name.length = 4 ∧
      e.size = 42 ∧ e.mode = 33188 ∧ e.dev = 2 ∧ e.ino = 201) ∧
    (bytes "file.txt").take 4 = bytes "file" ∧
    (∃ e, (ducdir_add_ent 256 true ctx_empty (ducdir.fresh 1) (bytes "file.txt") 42 33188 2
          201).1.ent_list[(ducdir.fresh 1).ent_count]? = some e ∧
      e.name_str = (bytes "file.txt").take 256 ∧
      ((bytes "file.txt").length ≤ 256 → e.name_str = bytes "file.txt") ∧
      (256 < (bytes "file.txt").length → e.name_str.length = 256) ∧
      e.name.length = 256 ∧
      e.size = 42 ∧ e.mode = 33188 ∧ e.dev = 2 ∧ e.ino = 201) :=
  ⟨by decide, by decide, by decide,
   ducdir_add_ent_stores 4 true ctx_empty (ducdir.fresh 1) (bytes "file.txt") 42 33188 2 201
     (by decide) (by decide) (by decide),
   by decide,
   ducdir_add_ent_stores 256 true ctx_empty (ducdir.fresh 1) (bytes "file.txt") 42 33188 2 201
     (by decide) (by decide) (by decide)⟩

/-! ### Record keys -/

theorem mkkey_eq (dev ino keylen : Nat) :
    mkkey dev ino keylen = ((key_text dev ino).take (keylen - 1), (key_text dev ino).length) :=
  rfl

theorem record_key_short (dev ino : Nat) (hlen : (key_text dev ino).length ≤ 31) :
    record_key dev ino = key_text dev ino := by
  unfold record_key
  rw [mkkey_eq]
  simp only [Nat.add_one_sub_one, Nat.reduceSub]
  rw [List.take_of_length_le hlen, List.take_append_of_le_length (le_refl _), List.take_length]

theorem fmt_jd_u64_small (v : Nat) (h : v < 2 ^ 63) :
    fmt_jd (u64_to_off v) = (Nat.toDigits 10 v).map Char.toNat := by
  have : u64_to_off v = Int.ofNat v := by
    unfold u64_to_off
    apply wrap_off_of_range
    · have : (0 : Int) ≤ Int.ofNat v := Int.ofNat_nonneg v
      omega
    · have : (Int.ofNat v) = (v : Int) := rfl
      rw [this]
      omega
  rw [this]
  rfl

/-- The record is absent for `ducdir_read` exactly when its key is not in the
store; the error then is `DUC_E_PATH_NOT_FOUND`. -/
theorem read_none_iff (M : Nat) (d : duc) (dev ino : Nat) :
    ((ducdir_read M d dev ino).1 = none ↔ d.db (record_key dev ino) = none) ∧
    (d.db (record_key dev ino) = none →
      ducdir_read M d dev ino = (none, { d with err := duc_errno.DUC_E_PATH_NOT_FOUND })) := by
  refine ⟨?_, fun h => read_of_get_none M d dev ino h⟩
  cases hv : d.db (record_key dev ino) with
  | none => simp [read_of_get_none M d dev ino hv]
  | some val => simp [read_of_get M d dev ino val hv]

/-- C14, counterexample.  For `dev = 2^64 - 1` and `ino = 1` the key handed to
the store is `-1/1`, not the text `18446744073709551615/1`. -/
theorem record_key_counterexample :
    record_key (2 ^ 64 - 1) 1 = bytes "-1/1" ∧
    key_text_spec (2 ^ 64 - 1) 1 = bytes "18446744073709551615/1" ∧
    ¬ (record_key (2 ^ 64 - 1) 1 = key_text_spec (2 ^ 64 - 1) 1 ∧
       (mkkey (2 ^ 64 - 1) 1 32).2 = (key_text_spec (2 ^ 64 - 1) 1).length) := by
  refine ⟨by decide, by decide, by decide⟩

/-- C14, amended.  For every `(dev, ino)` whose text `"%jd/%jd"`, with `dev` and
`ino` printed as signed 64-bit decimals, has at most 31 bytes, the key and the
key length of `mkkey` are that text and its length; it is the decimal text
`<dev>/<ino>` when `dev` and `ino` are below 2^63; `ducdir_write` stores the
record under that text and `ducdir_read` looks that text up. -/
theorem record_key_is_text (dev ino : Nat) (hlen : (key_text dev ino).length ≤ 31) :
    (mkkey dev ino 32).1 = key_text dev ino ∧
    (mkkey dev ino 32).2 = (key_text dev ino).length ∧
    record_key dev ino = key_text dev ino ∧
    (dev < 2 ^ 63 → ino < 2 ^ 63 → key_text dev ino = key_text_spec dev ino) ∧
    (∀ (buf_ok : Bool) (put_rc : Int) (d : duc) (dir : ducdir),
      (ducdir_write buf_ok put_rc d dir dev ino).2 = 0 →
      (ducdir_write buf_ok put_rc d dir dev ino).1.db (key_text dev ino)
        = some (encode_entries dir.entries)) ∧
    (∀ (M : Nat) (d : duc),
      (ducdir_read M d dev ino).1 = none ↔ d.db (key_text dev ino) = none) := by
  have hk := record_key_short dev ino hlen
  refine ⟨?_, by rw [mkkey_eq], hk, ?_, ?_, ?_⟩
  · rw [mkkey_eq]
    simp only [Nat.reduceSub]
    exact List.take_of_length_le hlen
  · intro hd hi
    unfold key_text key_text_spec
    rw [fmt_jd_u64_small dev hd, fmt_jd_u64_small ino hi]
  · intro buf_ok put_rc d dir hw
    rw [← hk]
    exact (write_success buf_ok put_rc d dir dev ino hw).1
  · intro M d
    rw [← hk]
    exact (read_none_iff M d dev ino).1

/-- Witness of C14, amended: the identity (1, 100), whose key is `1/100`. -/
theorem record_key_is_text_witness :
    (key_text 1 100).length ≤ 31 ∧ key_text 1 100 = bytes "1/100" ∧
    (mkkey 1 100 32).1 = key_text 1 100 ∧
    (mkkey 1 100 32).2 = (key_text 1 100).length ∧
    record_key 1 100 = key_text 1 100 ∧
    (1 < 2 ^ 63 → 100 < 2 ^ 63 → key_text 1 100 = key_text_spec 1 100) :=
  ⟨by decide, by decide, (record_key_is_text 1 100 (by decide)).1,
   (record_key_is_text 1 100 (by decide)).2.1, (record_key_is_text 1 100 (by decide)).2.2.1,
   (record_key_is_text 1 100 (by decide)).2.2.2.1⟩

set_option maxRecDepth 100000 in
/-- C18, the failing input.  The identities (2^44, 10^16) and (2^44, 10^16 + 1)
differ, their texts have 32 bytes and differ in the last byte only, and
`mkkey` leaves the same 31 bytes in the array and returns the same length 32
for both; the record written for the first is returned by `ducdir_read` for
the second. -/
theorem mkkey_collision :
    ((2 ^ 44, 10 ^ 16) : Nat × Nat) ≠ (2 ^ 44, 10 ^ 16 + 1) ∧
    key_text (2 ^ 44) (10 ^ 16) = bytes "17592186044416/10000000000000000" ∧
    key_text (2 ^ 44) (10 ^ 16 + 1) = bytes "17592186044416/10000000000000001" ∧
    mkkey (2 ^ 44) (10 ^ 16) 32 = (bytes "17592186044416/1000000000000000", 32) ∧
    mkkey (2 ^ 44) (10 ^ 16) 32 = mkkey (2 ^ 44) (10 ^ 16 + 1) 32 ∧
    record_key (2 ^ 44) (10 ^ 16) = record_key (2 ^ 44) (10 ^ 16 + 1) ∧
    (ducdir_read 256 long_key_store (2 ^ 44) (10 ^ 16 + 1)).1.map ducdir.entries
      = some [stored 256 ⟨bytes "x", 9, 33188, 2 ^ 44, 7⟩] := by
  refine ⟨by decide, by decide, by decide, by decide, by decide, by decide, by decide⟩

/-! ### Sequential read -/

theorem readdir_seq_spec : ∀ (k : Nat) (d : duc) (dir : ducdir),
    (readdir_seq k d dir).1
      = (List.range' dir.ent_cur (min k (dir.ent_count - dir.ent_cur))).map some
          ++ List.replicate (k - (dir.ent_count - dir.ent_cur)) none ∧
    (readdir_seq k d dir).2.1
      = { dir with ent_cur := dir.ent_cur + min k (dir.ent_count - dir.ent_cur) } ∧
    (0 < k → (readdir_seq k d dir).2.2 = { d with err := duc_errno.DUC_OK }) := by
  intro k
  induction k with
  | zero => intro d dir; simp [readdir_seq]
  | succ k ih =>
    intro d dir
    by_cases hc : dir.ent_cur < dir.ent_count
    · have hr : duc_readdir d dir = (some dir.ent_cur, { dir with ent_cur := dir.ent_cur + 1 },
          { d with err := duc_errno.DUC_OK }) := by
        simp [duc_readdir, hc]
      obtain ⟨i1, i2, i3⟩ := ih { d with err := duc_errno.DUC_OK }
        { dir with ent_cur := dir.ent_cur + 1 }
      simp only [readdir_seq, hr, i1, i2]
      have hmin : min (k + 1) (dir.ent_count - dir.ent_cur)
          = min k (dir.ent_count - (dir.ent_cur + 1)) + 1 := by omega
      refine ⟨?_, ?_, ?_⟩
      · rw [hmin, List.range'_succ]
        simp only [List.map_cons, List.cons_append, List.cons.injEq, true_and]
        congr 2
        omega
      · rw [hmin]
        simp only [ducdir.mk.injEq, true_and, and_true]
        omega
      · intro _
        cases k with
        | zero => rfl
        | succ k => exact i3 (by omega)
    · have hr : duc_readdir d dir = (none, dir, { d with err := duc_errno.DUC_OK }) := by
        simp [duc_readdir, hc]
      obtain ⟨i1, i2, i3⟩ := ih { d with err := duc_errno.DUC_OK } dir
      simp only [readdir_seq, hr, i1, i2]
      have h0 : dir.ent_count - dir.ent_cur = 0 := by omega
      refine ⟨?_, ?_, ?_⟩
      · simp only [h0, Nat.min_zero, List.range'_zero, List.map_nil, List.nil_append,
          Nat.sub_zero, List.replicate_succ]
      · simp only [h0, Nat.min_zero]
      · intro _
        cases k with
        | zero => rfl
        | succ k => exact i3 (by omega)

/-- C15. Sequential read: after `duc_rewinddir`, `k` calls of `duc_readdir`
return the entries at the indices 0, 1, ... below `ent_count` in order and
then NULL for every further call; a call at the end returns NULL and leaves
the directory as it is; the calls change the cursor only, and set the error
to 0; `duc_rewinddir` returns 0, changes the cursor only, and after any number
of calls gives back the directory it gave at first, so the same sequence
follows. -/
theorem duc_readdir_sequence (d : duc) (dir : ducdir) (k : Nat) :
    (readdir_seq k d (duc_rewinddir dir).1).1
      = (List.range (min k dir.ent_count)).map some
          ++ List.replicate (k - dir.ent_count) none ∧
    (readdir_seq k d (duc_rewinddir dir).1).2.1 = { dir with ent_cur := min k dir.ent_count } ∧
    (0 < k → (readdir_seq k d (duc_rewinddir dir).1).2.2 = { d with err := duc_errno.DUC_OK }) ∧
    (dir.ent_count ≤ dir.ent_cur →
      duc_readdir d dir = (none, dir, { d with err := duc_errno.DUC_OK })) ∧
    (dir.ent_cur < dir.ent_count →
      duc_readdir d dir = (some dir.ent_cur, { dir with ent_cur := dir.ent_cur + 1 },
        { d with err := duc_errno.DUC_OK })) ∧
    duc_rewinddir dir = ({ dir with ent_cur := 0 }, 0) ∧
    (duc_rewinddir (readdir_seq k d (duc_rewinddir dir).1).2.1).1 = (duc_rewinddir dir).1 ∧
    (∀ j, (readdir_seq j d (duc_rewinddir (readdir_seq k d (duc_rewinddir dir).1).2.1).1).1
      = (readdir_seq j d (duc_rewinddir dir).1).1) := by
  obtain ⟨h1, h2, h3⟩ := readdir_seq_spec k d (duc_rewinddir dir).1
  have hrw : duc_rewinddir dir = ({ dir with ent_cur := 0 }, 0) := rfl
  have hback : (duc_rewinddir (readdir_seq k d (duc_rewinddir dir).1).2.1).1
      = (duc_rewinddir dir).1 := by
    rw [h2]
    rfl
  refine ⟨?_, ?_, h3, ?_, ?_, hrw, hback, ?_⟩
  · rw [h1]
    simp only [hrw, Nat.sub_zero]
    rw [List.range_eq_range']
  · rw [h2]
    simp only [hrw, Nat.sub_zero, Nat.zero_add]
  · intro hc
    have : ¬ dir.ent_cur < dir.ent_count := by omega
    simp [duc_readdir, this]
  · intro hc
    simp [duc_readdir, hc]
  · intro j
    rw [hback]

/-- Witness of C15: five calls on the directory `sample_dir` of three entries,
left at its end before the rewind. -/
theorem duc_readdir_sequence_witness :
    (readdir_seq 5 ctx_empty (duc_rewinddir { sample_dir with ent_cur := 3 }).1).1
      = [some 0, some 1, some 2, none, none] ∧
    ({ sample_dir with ent_cur := 3 } : ducdir).ent_count
      ≤ ({ sample_dir with ent_cur := 3 } : ducdir).ent_cur ∧
    duc_readdir ctx_empty { sample_dir with ent_cur := 3 }
      = (none, { sample_dir with ent_cur := 3 }, { ctx_empty with err := duc_errno.DUC_OK }) :=
  ⟨by decide, by decide,
   (duc_readdir_sequence ctx_empty { sample_dir with ent_cur := 3 } 5).2.2.2.1 (by decide)⟩

/-! ### Record format -/

theorem encode_entries_flatten (es : List ducent) :
    encode_entries es
      = (es.map (fun e => buffer_put_string e.name ++ buffer_put_varint (off_to_u64 e.size)
          ++ buffer_put_varint e.mode ++ buffer_put_varint e.dev
          ++ buffer_put_varint e.ino)).flatten := by
  induction es with
  | nil => rfl
  | cons e es ih =>
    simp only [encode_entries, List.map_cons, List.flatten_cons, ih]
    rfl

/-- C16. Record format: the value that a successful `ducdir_write` stores is
the concatenation, over the entries in container order, of string(name),
varint(size), varint(mode), varint(dev), varint(ino), and nothing else; a
directory without entries is stored as the empty byte string; the bytes of a
directory are the bytes of its first `k` entries followed by the bytes of the
others; `ducdir_read` of an empty value returns a directory without
entries. -/
theorem ducdir_write_format :
    (∀ (buf_ok : Bool) (put_rc : Int) (d : duc) (dir : ducdir) (dev ino : Nat),
      (ducdir_write buf_ok put_rc d dir dev ino).2 = 0 →
      (ducdir_write buf_ok put_rc d dir dev ino).1.db (record_key dev ino)
        = some ((dir.entries.map (fun e => buffer_put_string e.name
            ++ buffer_put_varint (off_to_u64 e.size) ++ buffer_put_varint e.mode
            ++ buffer_put_varint e.dev ++ buffer_put_varint e.ino)).flatten) ∧
      (dir.ent_count = 0 →
        (ducdir_write buf_ok put_rc d dir dev ino).1.db (record_key dev ino) = some [])) ∧
    (∀ (es : List ducent) (k : Nat),
      encode_entries es = encode_entries (es.take k) ++ encode_entries (es.drop k)) ∧
    (∀ (M : Nat) (d : duc) (dev ino : Nat), d.db (record_key dev ino) = some [] →
      ∃ dir, ducdir_read M d dev ino = (some dir, d) ∧ dir.ent_count = 0 ∧ dir.entries = []) := by
  refine ⟨?_, ?_, ?_⟩
  · intro buf_ok put_rc d dir dev ino hw
    obtain ⟨w1, _⟩ := write_success buf_ok put_rc d dir dev ino hw
    refine ⟨by rw [w1, encode_entries_flatten], ?_⟩
    intro h0
    rw [w1]
    simp [ducdir.entries, h0, encode_entries]
  · intro es k
    rw [← encode_entries_append, List.take_append_drop]
  · intro M d dev ino h
    obtain ⟨dir, h1, _, h3, _⟩ := read_present M d dev ino [] h
    exact ⟨dir, h1, (h3 rfl).1, (h3 rfl).2⟩

/-- Witness of C16: the record of (2, 200) of the scenario store, and a
record with the empty value. -/
theorem ducdir_write_format_witness :
    (ducdir_write true 0 ctx_empty
        (add_all 256 ctx_empty (ducdir.fresh 8) [⟨bytes "file.txt", 42, 33188, 2, 201⟩]) 2 200).2
      = 0 ∧
    (ducdir_write true 0 ctx_empty
        (add_all 256 ctx_empty (ducdir.fresh 8) [⟨bytes "file.txt", 42, 33188, 2, 201⟩]) 2
        200).1.db (record_key 2 200)
      = some ([8] ++ bytes "file.txt" ++ [42] ++ [164, 131, 2] ++ [2] ++ [201, 1]) ∧
    (ducdir_write true 0 ctx_empty (ducdir.fresh 8) 2 200).2 = 0 ∧
    (ducdir.fresh 8).ent_count = 0 ∧
    (ducdir_write true 0 ctx_empty (ducdir.fresh 8) 2 200).1.db (record_key 2 200) = some [] ∧
    ∃ dir, ducdir_read 256 (ducdir_write true 0 ctx_empty (ducdir.fresh 8) 2 200).1 2 200
        = (some dir, (ducdir_write true 0 ctx_empty (ducdir.fresh 8) 2 200).1) ∧
      dir.ent_count = 0 ∧ dir.entries = [] :=
  ⟨by decide, by decide, by decide, by decide,
   ((ducdir_write_format.1 true 0 ctx_empty (ducdir.fresh 8) 2 200 (by decide)).2 (by decide)),
   ducdir_write_format.2.2 256 (ducdir_write true 0 ctx_empty (ducdir.fresh 8) 2 200).1 2 200
     (by decide)⟩

/-! ### Absent records -/

/-- C17. `ducdir_read` returns NULL with the error `DUC_E_PATH_NOT_FOUND`
exactly when the record key is not in the store; when the key is in the store
it returns a directory and leaves the error as it was, so that an absent key
is reported neither as an error of the store nor as an empty directory. -/
theorem ducdir_read_not_found_iff (M : Nat) (d : duc) (dev ino : Nat) :
    (((ducdir_read M d dev ino).1 = none ∧
        (ducdir_read M d dev ino).2.err = duc_errno.DUC_E_PATH_NOT_FOUND)
      ↔ d.db (record_key dev ino) = none) ∧
    ((ducdir_read M d dev ino).1 = none ↔ d.db (record_key dev ino) = none) ∧
    (d.db (record_key dev ino) = none →
      ducdir_read M d dev ino = (none, { d with err := duc_errno.DUC_E_PATH_NOT_FOUND })) ∧
    (d.db (record_key dev ino) ≠ none → ∃ dir, ducdir_read M d dev ino = (some dir, d)) := by
  obtain ⟨h1, h2⟩ := read_none_iff M d dev ino
  refine ⟨?_, h1, h2, ?_⟩
  · constructor
    · intro h
      exact h1.mp h.1
    · intro h
      rw [h2 h]
      exact ⟨rfl, rfl⟩
  · intro h
    cases hv : d.db (record_key dev ino) with
    | none => exact absurd hv h
    | some val =>
      obtain ⟨dir, hd, _⟩ := read_present M d dev ino val hv
      exact ⟨dir, hd⟩

/-- Witness of C17: in the scenario store the record of (2, 201) is absent and
the record of (2, 200) is present. -/
theorem ducdir_read_not_found_iff_witness :
    scenario.db (record_key 2 201) = none ∧
    ducdir_read 256 scenario 2 201
      = (none, { scenario with err := duc_errno.DUC_E_PATH_NOT_FOUND }) ∧
    scenario.db (record_key 2 200) ≠ none ∧
    ∃ dir, ducdir_read 256 scenario 2 200 = (some dir, scenario) :=
  ⟨by decide, (ducdir_read_not_found_iff 256 scenario 2 201).2.2.1 (by decide), by decide,
   (ducdir_read_not_found_iff 256 scenario 2 200).2.2.2 (by decide)⟩

/-! ### Capacity -/

/-- From a capacity that is not zero the slot written by a successful
`ducdir_add_ent` is inside the allocated slots, and the entries fit the
capacity after the call. -/
theorem capacity_invariant_pos (M c : Nat) (hc : 0 < c) (ok : Bool) (d : duc) (dir0 : ducdir)
    (h0 : (ducdir_new ok d c).1 = some dir0) (xs : List add_args) (a : add_args) (ok1 : Bool)
    (hs : (add_one M ok1 d (add_all M d dir0 xs) a).2.2 = 0) :
    (add_all M d dir0 xs).ent_count < (add_one M ok1 d (add_all M d dir0 xs) a).1.ent_max ∧
    (add_one M ok1 d (add_all M d dir0 xs) a).1.ent_list.length
      = (add_one M ok1 d (add_all M d dir0 xs) a).1.ent_max ∧
    (add_one M ok1 d (add_all M d dir0 xs) a).1.ent_count
      ≤ (add_one M ok1 d (add_all M d dir0 xs) a).1.ent_max := by
  obtain ⟨n1, _⟩ := new_alloc_ok ok d c dir0 hc h0
  obtain ⟨b1, _⟩ := add_all_spec M d xs dir0 n1
  rw [add_one_success M ok1 d _ a hs]
  obtain ⟨⟨a1, a2, _⟩, _, a3, _⟩ := add_one_true M d (add_all M d dir0 xs) a b1
  exact ⟨by omega, a1, a2⟩

/-- C19, the failing input.  `ducdir_new(duc, 0)` followed by one
`ducdir_add_ent` whose `realloc` request succeeds: the capacity, doubled, is
still 0, the call returns 0, and the slot written, index 0, is not below
`ent_max`; after the call `ent_count` is 1 and `ent_max` is 0. -/
theorem ducdir_add_ent_capacity_zero :
    (ducdir_new true ctx_empty 0).1 = some (ducdir.fresh 0) ∧
    (ducdir.fresh 0).ent_count = 0 ∧
    (ducdir_add_ent 256 true ctx_empty (ducdir.fresh 0) (bytes "a") 5 33188 1 2).2.2 = 0 ∧
    (ducdir_add_ent 256 true ctx_empty (ducdir.fresh 0) (bytes "a") 5 33188 1 2).1.ent_max = 0 ∧
    (ducdir_add_ent 256 true ctx_empty (ducdir.fresh 0) (bytes "a") 5 33188 1 2).1.ent_list
      = [] ∧
    (ducdir_add_ent 256 true ctx_empty (ducdir.fresh 0) (bytes "a") 5 33188 1 2).1.ent_count
      = 1 ∧
    ¬ ((ducdir.fresh 0).ent_count
        < (ducdir_add_ent 256 true ctx_empty (ducdir.fresh 0) (bytes "a") 5 33188 1 2).1.ent_max) ∧
    ¬ ((ducdir_add_ent 256 true ctx_empty (ducdir.fresh 0) (bytes "a") 5 33188 1 2).1.ent_count
        ≤ (ducdir_add_ent 256 true ctx_empty (ducdir.fresh 0) (bytes "a") 5 33188 1 2).1.ent_max) := by
  refine ⟨rfl, by decide, by decide, by decide, by decide, by decide, by decide, by decide⟩

/-! ### Sorting only reorders -/

/-- C20. With a library sort that rearranges its input, `duc_opendirat`
returns a directory exactly when `ducdir_read` does, with the same context;
its entries are a permutation of the entries that `ducdir_read` returns for
the same key, and `ent_count`, `size_total`, `ent_max` and the cursor are the
same. -/
theorem duc_opendirat_permutation (M : Nat) (q : Qsort) (hq : q.permutes) (d : duc)
    (dev ino : Nat) :
    ((duc_opendirat M q d dev ino).1 = none ↔ (ducdir_read M d dev ino).1 = none) ∧
    (duc_opendirat M q d dev ino).2 = (ducdir_read M d dev ino).2 ∧
    ∀ dir, (duc_opendirat M q d dev ino).1 = some dir →
      ∃ dir0, (ducdir_read M d dev ino).1 = some dir0 ∧
        dir.entries.Perm dir0.entries ∧ dir.ent_count = dir0.ent_count ∧
        dir.size_total = dir0.size_total ∧ dir.ent_max = dir0.ent_max ∧
        dir.ent_cur = dir0.ent_cur := by
  cases hr : ducdir_read M d dev ino with
  | mk r d1 =>
    cases r with
    | none =>
      have ho : duc_opendirat M q d dev ino = (none, d1) := by
        simp [duc_opendirat, hr]
      rw [ho]
      simp
    | some dir0 =>
      have ho : duc_opendirat M q d dev ino
          = (some { dir0 with ent_list := q fn_comp_ent (dir0.ent_list.take dir0.ent_count)
                                            ++ dir0.ent_list.drop dir0.ent_count }, d1) := by
        simp [duc_opendirat, hr]
      obtain ⟨dirx, hx, e1, e2, e3, e4, e5, _⟩ := opendirat_entries M q hq d d1 dev ino _ ho
      rw [hr] at hx
      simp only [Prod.mk.injEq, Option.some.injEq, and_true] at hx
      subst hx
      rw [ho]
      refine ⟨by simp, rfl, ?_⟩
      intro dir hdir
      simp only [Option.some.injEq] at hdir
      subst hdir
      refine ⟨dir0, rfl, ?_, e2, e3, e4, e5⟩
      rw [e1]
      exact hq fn_comp_ent dir0.entries

set_option maxRecDepth 100000 in
/-- Witness of C20: the record of (1, 100) of `rising` opened with the
insertion sort that tests `cmp x y <= 0`, which returns the three entries in
the reverse order. -/
theorem duc_opendirat_permutation_witness :
    qsort_insert_le.permutes ∧
    (duc_opendirat 256 qsort_insert_le rising 1 100).1.map
        (fun dir => dir.entries.map ducent.size) = some [3, 2, 1] ∧
    (ducdir_read 256 rising 1 100).1.map (fun dir => dir.entries.map ducent.size)
      = some [1, 2, 3] ∧
    ((duc_opendirat 256 qsort_insert_le rising 1 100).1 = none
      ↔ (ducdir_read 256 rising 1 100).1 = none) ∧
    (duc_opendirat 256 qsort_insert_le rising 1 100).2 = (ducdir_read 256 rising 1 100).2 :=
  ⟨qsort_insert_le_permutes, by decide, by decide,
   (duc_opendirat_permutation 256 qsort_insert_le qsort_insert_le_permutes rising 1 100).1,
   (duc_opendirat_permutation 256 qsort_insert_le qsort_insert_le_permutes rising 1 100).2.1⟩

/-! ### Keys that fit the array are distinct -/

theorem digitChar_toNat (m : Nat) (h : m < 10) :
    (Nat.digitChar m).toNat - 48 = m ∧ 48 ≤ (Nat.digitChar m).toNat ∧
      (Nat.digitChar m).toNat ≤ 57 := by
  interval_cases m <;> decide

theorem toDigitsCore_val : ∀ (fuel n : Nat) (ds : List Char), n < fuel →
    ((Nat.toDigitsCore 10 fuel n ds).map Char.toNat).foldl (fun acc c => 10 * acc + (c - 48)) 0
      = (ds.map Char.toNat).foldl (fun acc c => 10 * acc + (c - 48)) n := by
  intro fuel
  induction fuel with
  | zero => intro n ds h; omega
  | succ fuel ih =>
    intro n ds h
    have hd := (digitChar_toNat (n % 10) (Nat.mod_lt n (by norm_num))).1
    unfold Nat.toDigitsCore
    by_cases h0 : n / 10 = 0
    · simp only [h0, if_true, List.map_cons, List.foldl_cons, Nat.mul_zero, Nat.zero_add, hd]
      congr 1
      omega
    · simp only [h0, if_false]
      rw [ih (n / 10) _ (by omega)]
      simp only [List.map_cons, List.foldl_cons, hd]
      congr 1
      omega

theorem toDigitsCore_chars : ∀ (fuel n : Nat) (ds : List Char),
    ∀ c ∈ Nat.toDigitsCore 10 fuel n ds, c ∈ ds ∨ (48 ≤ c.toNat ∧ c.toNat ≤ 57) := by
  intro fuel
  induction fuel with
  | zero => intro n ds c hc; left; simpa [Nat.toDigitsCore] using hc
  | succ fuel ih =>
    intro n ds c hc
    have hd := (digitChar_toNat (n % 10) (Nat.mod_lt n (by norm_num))).2
    unfold Nat.toDigitsCore at hc
    by_cases h0 : n / 10 = 0
    · simp only [h0, if_true, List.mem_cons] at hc
      rcases hc with rfl | hc
      · right; exact hd
      · left; exact hc
    · simp only [h0, if_false] at hc
      rcases ih (n / 10) _ c hc with hc1 | hc1
      · rcases List.mem_cons.mp hc1 with rfl | hc2
        · right; exact hd
        · left; exact hc2
      · right; exact hc1

theorem toDigits_val (n : Nat) : digits_val ((Nat.toDigits 10 n).map Char.toNat) = n := by
  unfold digits_val Nat.toDigits
  rw [toDigitsCore_val (n + 1) n [] (Nat.lt_succ_self n)]
  rfl

theorem toDigits_chars (n : Nat) :
    ∀ c ∈ (Nat.toDigits 10 n).map Char.toNat, 48 ≤ c ∧ c ≤ 57 := by
  intro c hc
  obtain ⟨ch, hch, rfl⟩ := List.mem_map.mp hc
  rcases toDigitsCore_chars (n + 1) n [] ch hch with h | h
  · simp at h
  · exact h

theorem toDigits_ne_nil (n : Nat) : (Nat.toDigits 10 n).map Char.toNat ≠ [] := by
  intro h
  have hv := toDigits_val n
  rw [h] at hv
  simp only [digits_val, List.foldl_nil] at hv
  subst hv
  revert h
  decide

/-- The text of `fmt_jd` is read back by `parse_jd`; it holds no `/`. -/
theorem parse_fmt_jd (z : Int) : parse_jd (fmt_jd z) = z ∧ ∀ c ∈ fmt_jd z, c ≠ 47 := by
  cases z with
  | ofNat n =>
    have hne := toDigits_ne_nil n
    have hch := toDigits_chars n
    constructor
    · show parse_jd ((Nat.toDigits 10 n).map Char.toNat) = Int.ofNat n
      cases hl : (Nat.toDigits 10 n).map Char.toNat with
      | nil => exact absurd hl hne
      | cons x xs =>
        have hx := hch x (by rw [hl]; simp)
        have hx45 : x ≠ 45 := by omega
        have hp : parse_jd (x :: xs) = Int.ofNat (digits_val (x :: xs)) := by
          unfold parse_jd
          split
          · rename_i t heq
            simp only [List.cons.injEq] at heq
            omega
          · rfl
        rw [hp, ← hl, toDigits_val]
    · intro c hc
      have := hch c hc
      omega
  | negSucc n =>
    constructor
    · show parse_jd (45 :: (Nat.toDigits 10 (n + 1)).map Char.toNat) = Int.negSucc n
      simp only [parse_jd, toDigits_val]
      rfl
    · intro c hc
      rcases List.mem_cons.mp hc with rfl | hc
      · decide
      · have := toDigits_chars (n + 1) c hc
        omega

theorem u64_to_off_inj (a b : Nat) (ha : a < 2 ^ 64) (hb : b < 2 ^ 64)
    (h : u64_to_off a = u64_to_off b) : a = b := by
  unfold u64_to_off wrap_off at h
  have e1 : Int.ofNat a = (a : Int) := rfl
  have e2 : Int.ofNat b = (b : Int) := rfl
  rw [e1, e2] at h
  omega

theorem append_sep_inj (a b c d : List Nat) (ha : ∀ x ∈ a, x ≠ 47) (hc : ∀ x ∈ c, x ≠ 47)
    (h : a ++ 47 :: b = c ++ 47 :: d) : a = c ∧ b = d := by
  induction a generalizing c with
  | nil =>
    cases c with
    | nil => simpa using h
    | cons y ys =>
      simp only [List.nil_append, List.cons_append, List.cons.injEq] at h
      exact absurd h.1.symm (hc y (by simp))
  | cons x xs ih =>
    cases c with
    | nil =>
      simp only [List.nil_append, List.cons_append, List.cons.injEq] at h
      exact absurd h.1 (ha x (by simp))
    | cons y ys =>
      simp only [List.cons_append, List.cons.injEq] at h
      obtain ⟨r1, r2⟩ := ih ys (fun z hz => ha z (by simp [hz])) (fun z hz => hc z (by simp [hz]))
        h.2
      exact ⟨by rw [h.1, r1], r2⟩

/-- The texts that `mkkey` formats are distinct for distinct identities. -/
theorem key_text_inj (dev1 ino1 dev2 ino2 : Nat) (h1 : dev1 < 2 ^ 64) (h2 : ino1 < 2 ^ 64)
    (h3 : dev2 < 2 ^ 64) (h4 : ino2 < 2 ^ 64) (h : key_text dev1 ino1 = key_text dev2 ino2) :
    dev1 = dev2 ∧ ino1 = ino2 := by
  unfold key_text at h
  obtain ⟨e1, e2⟩ := append_sep_inj _ _ _ _ (parse_fmt_jd _).2 (parse_fmt_jd _).2 h
  have p1 := congrArg parse_jd e1
  have p2 := congrArg parse_jd e2
  rw [(parse_fmt_jd _).1, (parse_fmt_jd _).1] at p1 p2
  exact ⟨u64_to_off_inj _ _ h1 h3 p1, u64_to_off_inj _ _ h2 h4 p2⟩

/-- Distinct identities whose texts fit the key array, at most 31 bytes each,
have distinct keys and key lengths. -/
theorem record_key_inj_short (dev1 ino1 dev2 ino2 : Nat) (h1 : dev1 < 2 ^ 64)
    (h2 : ino1 < 2 ^ 64) (h3 : dev2 < 2 ^ 64) (h4 : ino2 < 2 ^ 64)
    (hl1 : (key_text dev1 ino1).length ≤ 31) (hl2 : (key_text dev2 ino2).length ≤ 31)
    (h : record_key dev1 ino1 = record_key dev2 ino2) : dev1 = dev2 ∧ ino1 = ino2 := by
  rw [record_key_short dev1 ino1 hl1, record_key_short dev2 ino2 hl2] at h
  exact key_text_inj dev1 ino1 dev2 ino2 h1 h2 h3 h4 h

end Duc
